import Mathlib

/-!
Verification of the laser-odometry core of `loam_velodyne`
(`src/lib/BasicLaserOdometry.cpp`), shallowly embedded over exact rational
arithmetic.  External library calls (Eigen eigen/QR solvers, the PCL KD-tree
nearest-neighbour query, `std::sqrt`, `std::sin`, `std::cos`) are abstracted
as oracle parameters; repository headers that are not part of the provided
sources (`math_utils.h`, `Transform.hpp`) are modelled from the specification,
as marked in the corresponding doc comments.
-/

/-- A PCL `PointXYZI` point: 3D position plus an intensity channel whose
integer part is the scan-ring id and whose fractional part encodes the
point's relative timestamp inside the sweep. -/
structure PointI where
  x : ℚ
  y : ℚ
  z : ℚ
  intensity : ℚ
deriving DecidableEq, Repr

/-- C++ `static_cast<int>` on a numeric value: truncation toward zero. -/
def truncQ (q : ℚ) : ℤ :=
  if 0 ≤ q then ⌊q⌋ else ⌈q⌉

/-- Abstract sine/cosine tables, standing for the `std::sin`/`std::cos`
calls cached inside the repository's `Angle` class. -/
structure Trig where
  sin : ℚ → ℚ
  cos : ℚ → ℚ

/-- Modelled from the spec: rotation of a point about the Z axis
(`rotZ` of the repository's `math_utils.h`, which is not under the provided
sources).  The intensity channel is untouched. -/
def rotZpt (T : Trig) (a : ℚ) (p : PointI) : PointI :=
  ⟨T.cos a * p.x - T.sin a * p.y, T.sin a * p.x + T.cos a * p.y, p.z,
   p.intensity⟩

/-- Modelled from the spec: rotation of a point about the X axis
(`rotX` of `math_utils.h`). -/
def rotXpt (T : Trig) (a : ℚ) (p : PointI) : PointI :=
  ⟨p.x, T.cos a * p.y - T.sin a * p.z, T.sin a * p.y + T.cos a * p.z,
   p.intensity⟩

/-- Modelled from the spec: rotation of a point about the Y axis
(`rotY` of `math_utils.h`). -/
def rotYpt (T : Trig) (a : ℚ) (p : PointI) : PointI :=
  ⟨T.cos a * p.x + T.sin a * p.z, p.y, T.cos a * p.z - T.sin a * p.x,
   p.intensity⟩

/-- Modelled from the spec: `rotateZXY(v, angZ, angX, angY)` of
`math_utils.h` rotates about Z, then X, then Y — the "Z,X,Y composition
order" of the specification. -/
def rotateZXY (T : Trig) (p : PointI) (az ax ay : ℚ) : PointI :=
  rotYpt T ay (rotXpt T ax (rotZpt T az p))

/-- Modelled from the spec: `rotateYXZ(v, angY, angX, angZ)` of
`math_utils.h` rotates about Y, then X, then Z. -/
def rotateYXZ (T : Trig) (p : PointI) (ay ax az : ℚ) : PointI :=
  rotZpt T az (rotXpt T ax (rotYpt T ay p))

/-- The 3×3 matrix of a rotation about Z by angle `a` (using the abstract
trig tables). -/
def rotMatZ (T : Trig) (a : ℚ) : Matrix (Fin 3) (Fin 3) ℚ :=
  Matrix.of ![![T.cos a, -T.sin a, 0], ![T.sin a, T.cos a, 0], ![0, 0, 1]]

/-- The 3×3 matrix of a rotation about X by angle `a`. -/
def rotMatX (T : Trig) (a : ℚ) : Matrix (Fin 3) (Fin 3) ℚ :=
  Matrix.of ![![1, 0, 0], ![0, T.cos a, -T.sin a], ![0, T.sin a, T.cos a]]

/-- The 3×3 matrix of a rotation about Y by angle `a`. -/
def rotMatY (T : Trig) (a : ℚ) : Matrix (Fin 3) (Fin 3) ℚ :=
  Matrix.of ![![T.cos a, 0, T.sin a], ![0, 1, 0], ![-T.sin a, 0, T.cos a]]

/-- The position of a point as a 3-vector. -/
def posVec (p : PointI) : Fin 3 → ℚ :=
  ![p.x, p.y, p.z]

/-- The incremental rigid transform of the odometry engine (`Twist` of the
repository's `Transform.hpp`, modelled from the spec: a 3D translation plus
three Euler angles, each angle kept as its radian value). -/
structure Twist where
  rot_x : ℚ
  rot_y : ℚ
  rot_z : ℚ
  px : ℚ
  py : ℚ
  pz : ℚ
deriving DecidableEq, Repr

/-- `BasicLaserOdometry::transformToStart` (lines 42-57): reproject a point
to the sweep-start frame by removing the fraction `s` of the incremental
motion, where `relTime` is the fractional part of the intensity and
`s = relTime / scanPeriod`. -/
def transformToStart (T : Trig) (scanPeriod : ℚ) (tf : Twist) (p : PointI) :
    PointI :=
  let relTime : ℚ := p.intensity - (truncQ p.intensity : ℚ)
  let s : ℚ := 1 / scanPeriod * relTime
  let po : PointI :=
    ⟨p.x - s * tf.px, p.y - s * tf.py, p.z - s * tf.pz, p.intensity⟩
  rotateZXY T po (-(s * tf.rot_z)) (-(s * tf.rot_x)) (-(s * tf.rot_y))

/-- The claim's reading of `transformToStart`, transcribed from its words:
the interpolation factor `s` is the fractional part of the intensity itself
(no division by the scan period); the rest is as in the code. -/
def transformToStartClaimS (T : Trig) (tf : Twist) (p : PointI) : PointI :=
  let s : ℚ := p.intensity - (truncQ p.intensity : ℚ)
  let po : PointI :=
    ⟨p.x - s * tf.px, p.y - s * tf.py, p.z - s * tf.pz, p.intensity⟩
  rotateZXY T po (-(s * tf.rot_z)) (-(s * tf.rot_x)) (-(s * tf.rot_y))

/-- Trig tables whose sine is identically 0 and cosine identically 1; used
as a concrete instantiation of the trig oracle. -/
def trigId : Trig :=
  ⟨fun _ => 0, fun _ => 1⟩

/-- The zero incremental transform. -/
def twistZero : Twist :=
  ⟨0, 0, 0, 0, 0, 0⟩

/-- The per-sweep IMU summary held by the engine (start and end attitude,
positional shift from start), as installed by `updateIMU`. -/
structure ImuState where
  pitchStart : ℚ
  yawStart : ℚ
  rollStart : ℚ
  pitchEnd : ℚ
  yawEnd : ℚ
  rollEnd : ℚ
  shiftX : ℚ
  shiftY : ℚ
  shiftZ : ℚ
deriving DecidableEq, Repr

/-- The per-point body of `BasicLaserOdometry::transformToEnd`
(lines 64-100): reproject to sweep-start (truncating the intensity to the
scan-ring id), re-apply the full incremental rotation in Y,X,Z order, add
the incremental translation corrected by the IMU shift-from-start, and
rotate through the IMU start attitude and inverse IMU end attitude. -/
def toEndPoint (T : Trig) (scanPeriod : ℚ) (tf : Twist) (imu : ImuState)
    (p0 : PointI) : PointI :=
  let relTime : ℚ := p0.intensity - (truncQ p0.intensity : ℚ)
  let s : ℚ := 1 / scanPeriod * relTime
  let p1 : PointI :=
    ⟨p0.x - s * tf.px, p0.y - s * tf.py, p0.z - s * tf.pz,
     ((truncQ p0.intensity : ℤ) : ℚ)⟩
  let p2 := rotateZXY T p1 (-(s * tf.rot_z)) (-(s * tf.rot_x)) (-(s * tf.rot_y))
  let p3 := rotateYXZ T p2 tf.rot_y tf.rot_x tf.rot_z
  let p4 : PointI :=
    ⟨p3.x + tf.px - imu.shiftX, p3.y + tf.py - imu.shiftY,
     p3.z + tf.pz - imu.shiftZ, p3.intensity⟩
  let p5 := rotateZXY T p4 imu.rollStart imu.pitchStart imu.yawStart
  rotateYXZ T p5 (-imu.yawEnd) (-imu.pitchEnd) (-imu.rollEnd)

/-- `BasicLaserOdometry::transformToEnd` (lines 59-104): transform every
point of the cloud to the sweep-end frame and return the point count. -/
def transformToEnd (T : Trig) (scanPeriod : ℚ) (tf : Twist) (imu : ImuState)
    (cloud : List PointI) : ℕ × List PointI :=
  (cloud.length, cloud.map (toEndPoint T scanPeriod tf imu))

/-- A bare 3-vector of rationals (the `Eigen::Vector3f` values of the
residual builders). -/
structure V3 where
  x : ℚ
  y : ℚ
  z : ℚ
deriving DecidableEq, Repr

/-- Componentwise difference of 3-vectors. -/
def V3.sub (a b : V3) : V3 :=
  ⟨a.x - b.x, a.y - b.y, a.z - b.z⟩

/-- Dot product of 3-vectors. -/
def V3.dot (a b : V3) : ℚ :=
  a.x * b.x + a.y * b.y + a.z * b.z

/-- Cross product of 3-vectors. -/
def V3.cross (a b : V3) : V3 :=
  ⟨a.y * b.z - a.z * b.y, a.z * b.x - a.x * b.z, a.x * b.y - a.y * b.x⟩

/-- Squared Euclidean norm of a 3-vector. -/
def V3.sqNorm (a : V3) : ℚ :=
  a.x * a.x + a.y * a.y + a.z * a.z

/-- Componentwise division of a 3-vector by a scalar. -/
def V3.sdiv (a : V3) (c : ℚ) : V3 :=
  ⟨a.x / c, a.y / c, a.z / c⟩

/-- The position of a point as a `V3`. -/
def PointI.toV3 (p : PointI) : V3 :=
  ⟨p.x, p.y, p.z⟩

/-- Modelled from the spec: `calcSquaredDiff` of `math_utils.h` (not under
the provided sources) is the squared Euclidean distance between two
points. -/
def calcSquaredDiff (a b : PointI) : ℚ :=
  (a.x - b.x) * (a.x - b.x) + (a.y - b.y) * (a.y - b.y) +
    (a.z - b.z) * (a.z - b.z)

/-- Modelled from the spec: `calcPointDistance` of `math_utils.h` returns
the squared norm of the point's position, so that its square root is the
query-point range used to normalise the plane weight. -/
def calcPointDistance (p : PointI) : ℚ :=
  p.x * p.x + p.y * p.y + p.z * p.z

/-- The per-point body of `BasicLaserOdometry::computeCornerDistances`
(lines 485-546), for a feature point whose edge correspondence
`(tripod1, tripod2)` was found: compute the point-to-edge distance, normal,
and weight, and push `(original point, coefficient)` unless the point is
discarded.  `sq` is the `std::sqrt` oracle; the Eigen `.norm()` calls
become `sq` applied to the squared norm. -/
def computeCornerDistanceOne (sq : ℚ → ℚ) (iterCount : ℕ)
    (ori pointSel tripod1 tripod2 : PointI) : Option (PointI × PointI) :=
  let vecI := pointSel.toV3
  let vecJ := tripod1.toV3
  let vecL := tripod2.toV3
  let vecIJ := vecI.sub vecJ
  let vecIL := vecI.sub vecL
  let vecJL := vecJ.sub vecL
  let vecCross := vecIJ.cross vecIL
  let a012 := sq vecCross.sqNorm
  let l12 := sq vecJL.sqNorm
  let vecNormal := ((vecJL.cross vecCross).sdiv a012).sdiv l12
  let ld2 := a012 / l12
  let s : ℚ := if iterCount < 5 then 1 else 1 - 9/5 * |ld2|
  let coeff : PointI := ⟨s * vecNormal.x, s * vecNormal.y, s * vecNormal.z,
    s * ld2⟩
  if s ≤ 1/10 ∨ ld2 = 0 then none else some (ori, coeff)

/-- The per-point body of `BasicLaserOdometry::computePlaneDistances`
(lines 674-745), for a feature point whose plane correspondence
`(tripod1, tripod2, tripod3)` was found. -/
def computePlaneDistanceOne (sq : ℚ → ℚ) (iterCount : ℕ)
    (ori pointSel tripod1 tripod2 tripod3 : PointI) :
    Option (PointI × PointI) :=
  let vecI := pointSel.toV3
  let vecJ := tripod1.toV3
  let vecL := tripod2.toV3
  let vecM := tripod3.toV3
  let vecIJ := vecI.sub vecJ
  let vecJL := vecJ.sub vecL
  let vecJM := vecJ.sub vecM
  let vecCross := vecJL.cross vecJM
  let ps := sq vecCross.sqNorm
  let vecNormal := vecCross.sdiv ps
  let pd2 := vecIJ.dot vecNormal
  let s : ℚ := if iterCount < 5 then 1
    else 1 - 9/5 * |pd2| / sq (calcPointDistance pointSel)
  let coeff : PointI := ⟨s * vecNormal.x, s * vecNormal.y, s * vecNormal.z,
    s * pd2⟩
  if s ≤ 1/10 ∨ pd2 = 0 then none else some (ori, coeff)

/-- The point-to-edge distance of the claim: `|(i-j)×(i-l)| / |j-l|`. -/
def edgeDistance (sq : ℚ → ℚ) (pointSel tripod1 tripod2 : PointI) : ℚ :=
  sq (((pointSel.toV3.sub tripod1.toV3).cross
    (pointSel.toV3.sub tripod2.toV3)).sqNorm) /
    sq ((tripod1.toV3.sub tripod2.toV3).sqNorm)

/-- The edge normal direction of the claim:
`(j-l) × [(i-j)×(i-l)]` scaled by the cross and baseline norms. -/
def edgeNormalV (sq : ℚ → ℚ) (pointSel tripod1 tripod2 : PointI) : V3 :=
  (((tripod1.toV3.sub tripod2.toV3).cross
    ((pointSel.toV3.sub tripod1.toV3).cross
      (pointSel.toV3.sub tripod2.toV3))).sdiv
    (sq (((pointSel.toV3.sub tripod1.toV3).cross
      (pointSel.toV3.sub tripod2.toV3)).sqNorm))).sdiv
    (sq ((tripod1.toV3.sub tripod2.toV3).sqNorm))

/-- The edge weight of the claim: `1` below iteration 5, else
`1 − 1.8·|d|`. -/
def edgeWeight (sq : ℚ → ℚ) (iterCount : ℕ)
    (pointSel tripod1 tripod2 : PointI) : ℚ :=
  if iterCount < 5 then 1
  else 1 - 9/5 * |edgeDistance sq pointSel tripod1 tripod2|

/-- The plane normal of the claim: `(j-l)×(j-m)` normalised. -/
def planeNormalV (sq : ℚ → ℚ) (tripod1 tripod2 tripod3 : PointI) : V3 :=
  ((tripod1.toV3.sub tripod2.toV3).cross
    (tripod1.toV3.sub tripod3.toV3)).sdiv
    (sq (((tripod1.toV3.sub tripod2.toV3).cross
      (tripod1.toV3.sub tripod3.toV3)).sqNorm))

/-- The signed point-to-plane distance of the claim: `(i-j)·normal`. -/
def planeDistance (sq : ℚ → ℚ) (pointSel tripod1 tripod2 tripod3 : PointI) :
    ℚ :=
  (pointSel.toV3.sub tripod1.toV3).dot (planeNormalV sq tripod1 tripod2 tripod3)

/-- The plane weight of the claim: `1` below iteration 5, else
`1 − 1.8·|d| / range`, the range being the query point's distance from the
sensor. -/
def planeWeight (sq : ℚ → ℚ) (iterCount : ℕ)
    (pointSel tripod1 tripod2 tripod3 : PointI) : ℚ :=
  if iterCount < 5 then 1
  else 1 - 9/5 * |planeDistance sq pointSel tripod1 tripod2 tripod3| /
    sq (calcPointDistance pointSel)

/-- The forward half of the second-point search of
`BasicLaserOdometry::findCornerCorrespondence` (lines 608-629): scan the
reference cloud upward from index `j`, stopping at the loop bound `bound`
(which the source sets to the current sweep's sharp-corner count, not the
reference cloud's size) or at the first point whose ring id exceeds
`ring0 + 2.5`; points on rings at or below `ring0` are skipped; any other
point closer to `pointSel` than the current best replaces it.  The
accumulator is `(minPointInd2, minPointSqDis2)`. -/
def cornerFwd (ref : ℕ → PointI) (ring0 : ℤ) (pointSel : PointI)
    (bound : ℕ) (j : ℕ) (acc : ℤ × ℚ) : ℤ × ℚ :=
  if j < bound then
    if ((truncQ (ref j).intensity : ℚ)) > (ring0 : ℚ) + 5/2 then acc
    else if truncQ (ref j).intensity ≤ ring0 then
      cornerFwd ref ring0 pointSel bound (j+1) acc
    else if calcSquaredDiff (ref j) pointSel < acc.2 then
      cornerFwd ref ring0 pointSel bound (j+1)
        ((j : ℤ), calcSquaredDiff (ref j) pointSel)
    else cornerFwd ref ring0 pointSel bound (j+1) acc
  else acc
termination_by bound - j

/-- The backward half of the second-point search of
`findCornerCorrespondence` (lines 631-646): scan downward from index
`j - 1` (the argument is the scan position plus one, so `0` means the scan
is exhausted), stopping at the first point whose ring id drops below
`ring0 - 2.5`; points on rings at or above `ring0` are skipped. -/
def cornerBwd (ref : ℕ → PointI) (ring0 : ℤ) (pointSel : PointI) :
    ℕ → ℤ × ℚ → ℤ × ℚ
  | 0, acc => acc
  | j+1, acc =>
    if ((truncQ (ref j).intensity : ℚ)) < (ring0 : ℚ) - 5/2 then acc
    else if ring0 ≤ truncQ (ref j).intensity then
      cornerBwd ref ring0 pointSel j acc
    else if calcSquaredDiff (ref j) pointSel < acc.2 then
      cornerBwd ref ring0 pointSel j ((j : ℤ), calcSquaredDiff (ref j) pointSel)
    else cornerBwd ref ring0 pointSel j acc

/-- The per-feature-point body of `findCornerCorrespondence`
(lines 570-654): KD-query for the closest reference point, reject beyond
the 25 m² cut, then search both directions for the second edge point.
`kd` abstracts the PCL `nearestKSearch` call and returns the hit index and
its squared distance.  The result is
`(pointSearchCornerInd1, pointSearchCornerInd2)`. -/
def cornerCorrOne (T : Trig) (scanPeriod : ℚ) (tf : Twist)
    (kd : PointI → ℕ × ℚ) (ref : ℕ → PointI) (bound : ℕ) (p : PointI) :
    ℤ × ℤ :=
  let pointSel := transformToStart T scanPeriod tf p
  let q := kd pointSel
  if 25 ≤ q.2 then (-1, -1)
  else
    let closestPointInd := q.1
    let closestPointScan := truncQ (ref closestPointInd).intensity
    let fw := cornerFwd ref closestPointScan pointSel bound
      (closestPointInd + 1) (-1, 25)
    let r := cornerBwd ref closestPointScan pointSel closestPointInd fw
    ((closestPointInd : ℤ), r.1)

/-- `BasicLaserOdometry::findCornerCorrespondence` (lines 550-655) over the
whole sharp-corner cloud; the search bound passed to the per-point body is
the sharp cloud's own length, exactly as in the source. -/
def findCornerCorrespondence (T : Trig) (scanPeriod : ℚ) (tf : Twist)
    (kd : PointI → ℕ × ℚ) (ref : ℕ → PointI) (sharp : List PointI) :
    List (ℤ × ℤ) :=
  sharp.map (cornerCorrOne T scanPeriod tf kd ref sharp.length)

/-- The forward half of the secondary/tertiary search of
`BasicLaserOdometry::findPlaneCorrespondence` (lines 806-832): same-ring
(or lower) points compete for `minPointInd2`, higher-ring points for
`minPointInd3`. -/
def planeFwd (ref : ℕ → PointI) (ring0 : ℤ) (pointSel : PointI)
    (bound : ℕ) (j : ℕ) (acc2 acc3 : ℤ × ℚ) : (ℤ × ℚ) × (ℤ × ℚ) :=
  if j < bound then
    if ((truncQ (ref j).intensity : ℚ)) > (ring0 : ℚ) + 5/2 then (acc2, acc3)
    else if truncQ (ref j).intensity ≤ ring0 then
      if calcSquaredDiff (ref j) pointSel < acc2.2 then
        planeFwd ref ring0 pointSel bound (j+1)
          ((j : ℤ), calcSquaredDiff (ref j) pointSel) acc3
      else planeFwd ref ring0 pointSel bound (j+1) acc2 acc3
    else
      if calcSquaredDiff (ref j) pointSel < acc3.2 then
        planeFwd ref ring0 pointSel bound (j+1) acc2
          ((j : ℤ), calcSquaredDiff (ref j) pointSel)
      else planeFwd ref ring0 pointSel bound (j+1) acc2 acc3
  else (acc2, acc3)
termination_by bound - j

/-- The backward half of the secondary/tertiary search of
`findPlaneCorrespondence` (lines 834-854). -/
def planeBwd (ref : ℕ → PointI) (ring0 : ℤ) (pointSel : PointI) :
    ℕ → ℤ × ℚ → ℤ × ℚ → (ℤ × ℚ) × (ℤ × ℚ)
  | 0, acc2, acc3 => (acc2, acc3)
  | j+1, acc2, acc3 =>
    if ((truncQ (ref j).intensity : ℚ)) < (ring0 : ℚ) - 5/2 then (acc2, acc3)
    else if ring0 ≤ truncQ (ref j).intensity then
      if calcSquaredDiff (ref j) pointSel < acc2.2 then
        planeBwd ref ring0 pointSel j
          ((j : ℤ), calcSquaredDiff (ref j) pointSel) acc3
      else planeBwd ref ring0 pointSel j acc2 acc3
    else
      if calcSquaredDiff (ref j) pointSel < acc3.2 then
        planeBwd ref ring0 pointSel j acc2
          ((j : ℤ), calcSquaredDiff (ref j) pointSel)
      else planeBwd ref ring0 pointSel j acc2 acc3

/-- The per-feature-point body of `findPlaneCorrespondence`
(lines 766-859).  The result is
`(pointSearchSurfInd1, pointSearchSurfInd2, pointSearchSurfInd3)`. -/
def planeCorrOne (T : Trig) (scanPeriod : ℚ) (tf : Twist)
    (kd : PointI → ℕ × ℚ) (ref : ℕ → PointI) (bound : ℕ) (p : PointI) :
    ℤ × ℤ × ℤ :=
  let pointSel := transformToStart T scanPeriod tf p
  let q := kd pointSel
  if 25 ≤ q.2 then (-1, -1, -1)
  else
    let closestPointInd := q.1
    let closestPointScan := truncQ (ref closestPointInd).intensity
    let fw := planeFwd ref closestPointScan pointSel bound
      (closestPointInd + 1) (-1, 25) (-1, 25)
    let r := planeBwd ref closestPointScan pointSel closestPointInd fw.1 fw.2
    ((closestPointInd : ℤ), r.1.1, r.2.1)

/-- `BasicLaserOdometry::findPlaneCorrespondence` (lines 749-860) over the
whole flat-surface cloud; the search bound is the flat cloud's own length,
exactly as in the source. -/
def findPlaneCorrespondence (T : Trig) (scanPeriod : ℚ) (tf : Twist)
    (kd : PointI → ℕ × ℚ) (ref : ℕ → PointI) (flat : List PointI) :
    List (ℤ × ℤ × ℤ) :=
  flat.map (planeCorrOne T scanPeriod tf kd ref flat.length)

/-- A reference index that the forward scan started at `start` can reach
without triggering the break (no ring id on the way, itself included,
exceeds `ring0 + 2.5`) and that carries a ring id strictly above `ring0`. -/
def FwdCandidate (ref : ℕ → PointI) (bound start : ℕ) (ring0 : ℤ)
    (k : ℕ) : Prop :=
  start ≤ k ∧ k < bound ∧ ring0 < truncQ (ref k).intensity ∧
    ∀ m, start ≤ m → m ≤ k →
      ((truncQ (ref m).intensity : ℚ) ≤ (ring0 : ℚ) + 5/2)

/-- A reference index that the backward scan started just below `ind` can
reach without triggering the break and that carries a ring id strictly
below `ring0`. -/
def BwdCandidate (ref : ℕ → PointI) (ind : ℕ) (ring0 : ℤ) (k : ℕ) : Prop :=
  k < ind ∧ truncQ (ref k).intensity < ring0 ∧
    ∀ m, k ≤ m → m < ind →
      ((ring0 : ℚ) - 5/2 ≤ (truncQ (ref m).intensity : ℚ))

/-- Invariant of the `(minPointInd2, minPointSqDis2)` accumulator: either
still the initial `(-1, 25)`, or a candidate from `C` realising the current
minimum, which is below the 25 m² cap. -/
def AccInv (C : ℕ → Prop) (pointSel : PointI) (ref : ℕ → PointI)
    (acc : ℤ × ℚ) : Prop :=
  acc = (-1, 25) ∨
    ∃ k : ℕ, acc.1 = (k : ℤ) ∧ C k ∧
      acc.2 = calcSquaredDiff (ref k) pointSel ∧
      calcSquaredDiff (ref k) pointSel < 25

/-- The reference-cloud indices read by the forward scans of
`findCornerCorrespondence` (lines 608-629) and `findPlaneCorrespondence`
(lines 806-832): every visited index is read (to obtain its ring id) before
the break test fires. -/
def searchFwdReads (ref : ℕ → PointI) (ring0 : ℤ) (bound : ℕ) (j : ℕ) :
    List ℕ :=
  if j < bound then
    if ((truncQ (ref j).intensity : ℚ)) > (ring0 : ℚ) + 5/2 then [j]
    else j :: searchFwdReads ref ring0 bound (j+1)
  else []
termination_by bound - j

/-- The reference-cloud indices read by the backward scans of
`findCornerCorrespondence` (lines 631-646) and `findPlaneCorrespondence`
(lines 834-854). -/
def searchBwdReads (ref : ℕ → PointI) (ring0 : ℤ) : ℕ → List ℕ
  | 0 => []
  | j+1 =>
    if ((truncQ (ref j).intensity : ℚ)) < (ring0 : ℚ) - 5/2 then [j]
    else j :: searchBwdReads ref ring0 j

/-- All reference-cloud indices read by the per-point body of
`findPlaneCorrespondence`: the KD hit plus both scan directions, the
forward one bounded by the current sweep's feature count `bound` as in the
source. -/
def planeReadIndices (T : Trig) (scanPeriod : ℚ) (tf : Twist)
    (kd : PointI → ℕ × ℚ) (ref : ℕ → PointI) (bound : ℕ) (p : PointI) :
    List ℕ :=
  let pointSel := transformToStart T scanPeriod tf p
  let q := kd pointSel
  if 25 ≤ q.2 then []
  else
    let ring0 := truncQ (ref q.1).intensity
    q.1 :: (searchFwdReads ref ring0 bound (q.1 + 1) ++
      searchBwdReads ref ring0 q.1)

/-- A KD-tree oracle that always reports index 0 at distance 0. -/
def kdZero : PointI → ℕ × ℚ :=
  fun _ => (0, 0)

/-- A reference cloud in which every index holds the origin with ring
id 1. -/
def refRing1 : ℕ → PointI :=
  fun _ => ⟨0, 0, 0, 1⟩

/-- A reference cloud in which index `j` holds the origin with ring
id `j`. -/
def refLadder : ℕ → PointI :=
  fun j => ⟨0, 0, 0, (j : ℚ)⟩

/-- A NaN/infinity-aware model of an IEEE float value: the exact-rational
embedding cannot represent the non-finite values that lines 398-411 of
`performOptimization` guard against, so that reset block is stated over
this model. -/
inductive FloatV where
  | fin (q : ℚ)
  | nan
  | pinf
  | ninf
deriving DecidableEq, Repr

/-- `std::isfinite` on the float model. -/
def FloatV.isFiniteV : FloatV → Bool
  | .fin _ => true
  | _ => false

/-- IEEE-style addition on the float model: NaN propagates, opposite
infinities give NaN, an infinity absorbs finite values. -/
def FloatV.addV : FloatV → FloatV → FloatV
  | .fin a, .fin b => .fin (a + b)
  | .nan, _ => .nan
  | _, .nan => .nan
  | .pinf, .ninf => .nan
  | .ninf, .pinf => .nan
  | .pinf, _ => .pinf
  | _, .pinf => .pinf
  | .ninf, _ => .ninf
  | _, .ninf => .ninf

/-- The six components of the incremental transform over the float model,
in the order rotation x,y,z then translation x,y,z of the solution
vector `matX`. -/
structure TwistV where
  rot_x : FloatV
  rot_y : FloatV
  rot_z : FloatV
  px : FloatV
  py : FloatV
  pz : FloatV
deriving DecidableEq, Repr

/-- Component accessor for `TwistV`, indexed like the solution vector. -/
def TwistV.comp (tf : TwistV) : Fin 6 → FloatV :=
  ![tf.rot_x, tf.rot_y, tf.rot_z, tf.px, tf.py, tf.pz]

/-- Lines 391-396 of `performOptimization`: add the solution vector to the
transform, componentwise. -/
def updateTransformV (tf : TwistV) (x : Fin 6 → FloatV) : TwistV :=
  ⟨tf.rot_x.addV (x 0), tf.rot_y.addV (x 1), tf.rot_z.addV (x 2),
   tf.px.addV (x 3), tf.py.addV (x 4), tf.pz.addV (x 5)⟩

/-- Lines 398-411 of `performOptimization`: each component that is not
finite is reset to its zero value (`Angle()` for the rotations, `0.0f` for
the translations); each check touches one component only. -/
def resetNonFinite (tf : TwistV) : TwistV :=
  ⟨if tf.rot_x.isFiniteV then tf.rot_x else .fin 0,
   if tf.rot_y.isFiniteV then tf.rot_y else .fin 0,
   if tf.rot_z.isFiniteV then tf.rot_z else .fin 0,
   if tf.px.isFiniteV then tf.px else .fin 0,
   if tf.py.isFiniteV then tf.py else .fin 0,
   if tf.pz.isFiniteV then tf.pz else .fin 0⟩

/-- The per-engine state of `BasicLaserOdometry` that the `process` entry
point reads and writes: the init flag, frame counter, incremental and
cumulative transforms, the four input feature clouds, the reference clouds
and the clouds their KD-trees were built over, and the IMU start
attitude. -/
structure EngineState where
  systemInited : Bool
  frameCount : ℕ
  transform : Twist
  transformSum : Twist
  cornerPointsSharp : List PointI
  cornerPointsLessSharp : List PointI
  surfPointsFlat : List PointI
  surfPointsLessFlat : List PointI
  lastCornerCloud : List PointI
  lastSurfaceCloud : List PointI
  lastCornerKDCloud : List PointI
  lastSurfaceKDCloud : List PointI
  imuPitchStart : ℚ
  imuYawStart : ℚ
  imuRollStart : ℚ
deriving Repr

/-- `BasicLaserOdometry::process` (lines 186-271).  The uninitialized
branch (lines 188-205) is embedded directly: swap the less-sharp/less-flat
clouds into the reference slots, rebuild both KD-trees over them, seed the
cumulative rotation's pitch and roll from the IMU start attitude, set the
init flag and return.  The steady-state remainder (lines 207-270) is the
`steadyStep` parameter, whose ingredients (`performOptimization`,
`transformToEnd`) are embedded separately. -/
def process (steadyStep : EngineState → EngineState) (st : EngineState) :
    EngineState :=
  if st.systemInited then steadyStep st
  else
    { st with
      cornerPointsLessSharp := st.lastCornerCloud,
      lastCornerCloud := st.cornerPointsLessSharp,
      surfPointsLessFlat := st.lastSurfaceCloud,
      lastSurfaceCloud := st.surfPointsLessFlat,
      lastCornerKDCloud := st.cornerPointsLessSharp,
      lastSurfaceKDCloud := st.surfPointsLessFlat,
      transformSum := { st.transformSum with
        rot_x := st.transformSum.rot_x + st.imuPitchStart,
        rot_z := st.transformSum.rot_z + st.imuRollStart },
      systemInited := true }

/-- A freshly constructed engine (constructor at lines 22-40: zeroed
transforms, empty reference clouds, init flag down) with the four feature
clouds and the IMU start attitude installed for the first sweep. -/
def initEngine (sharp lessSharp flat lessFlat : List PointI)
    (imuP imuY imuR : ℚ) : EngineState :=
  ⟨false, 0, twistZero, twistZero, sharp, lessSharp, flat, lessFlat,
   [], [], [], [], imuP, imuY, imuR⟩

/-- The mathematical inverse of a 6×6 rational matrix via the adjugate
(the `matV.inverse()` call of line 463); on a singular input this yields
the zero matrix. -/
def matInverse (A : Matrix (Fin 6) (Fin 6) ℚ) : Matrix (Fin 6) (Fin 6) ℚ :=
  (A.det)⁻¹ • A.adjugate

/-- The row-zeroing scan of `checkDegeneration` (lines 453-460): walk the
eigenvalues in index order; an eigenvalue below the threshold 10 zeroes the
corresponding eigenvector row of the copy and marks degeneracy; the scan
stops at the first eigenvalue at or above 10. -/
def degenScan (e : Fin 6 → ℚ) (i : ℕ) (v2 : Matrix (Fin 6) (Fin 6) ℚ)
    (deg : Bool) : Matrix (Fin 6) (Fin 6) ℚ × Bool :=
  if h : i < 6 then
    if e ⟨i, h⟩ < 10 then degenScan e (i+1) (v2.updateRow ⟨i, h⟩ 0) true
    else (v2, deg)
  else (v2, deg)
termination_by 6 - i

/-- The first index at which the eigenvalue list reaches the threshold 10
(6 when it never does): the number of leading rows `degenScan` zeroes. -/
def leadCountAux (e : Fin 6 → ℚ) (i : ℕ) : ℕ :=
  if h : i < 6 then
    if e ⟨i, h⟩ < 10 then leadCountAux e (i+1) else i
  else i
termination_by 6 - i

/-- The number of leading eigenvalues below 10. -/
def leadCount (e : Fin 6 → ℚ) : ℕ :=
  leadCountAux e 0

/-- Zero the first `k` rows of a matrix. -/
def zeroLead (k : ℕ) (v : Matrix (Fin 6) (Fin 6) ℚ) :
    Matrix (Fin 6) (Fin 6) ℚ :=
  Matrix.of fun i j => if (i : ℕ) < k then 0 else v i j

/-- `BasicLaserOdometry::checkDegeneration` (lines 430-466): eigendecompose
the Hessian through the eigensolver oracle `eig` (Eigen's
`SelfAdjointEigenSolver`, whose eigenvalues come sorted in increasing
order), zero the rows of a copy of the eigenvector matrix belonging to
eigenvalues below 10, and return the degeneracy flag together with the
projection matrix `matV⁻¹ · matV2`. -/
def checkDegeneration
    (eig : Matrix (Fin 6) (Fin 6) ℚ → (Fin 6 → ℚ) × Matrix (Fin 6) (Fin 6) ℚ)
    (hessianMat : Matrix (Fin 6) (Fin 6) ℚ) :
    Bool × Matrix (Fin 6) (Fin 6) ℚ :=
  ((degenScan (eig hessianMat).1 0 (eig hessianMat).2 false).2,
   matInverse (eig hessianMat).2 *
     (degenScan (eig hessianMat).1 0 (eig hessianMat).2 false).1)

/-- The oracle bundle of `performOptimization`: `rows` abstracts the number
of rows that `computeCornerDistances` plus `computePlaneDistances` leave in
`laserCloudOri` for a given iteration index and transform (their per-point
bodies are embedded separately); `linSys` abstracts the assembled normal
equations `AᵗA` (lines 304-374) and the QR solution `matX` of line 378;
`eig` abstracts the Eigen eigensolver; `radToDegSq` models the square of
the radian-to-degree factor of the abort test. -/
structure OdoOracles where
  rows : ℕ → Twist → ℕ
  linSys : ℕ → Twist → Matrix (Fin 6) (Fin 6) ℚ × (Fin 6 → ℚ)
  eig : Matrix (Fin 6) (Fin 6) ℚ → (Fin 6 → ℚ) × Matrix (Fin 6) (Fin 6) ℚ
  radToDegSq : ℚ

/-- Per-iteration log entry: either the iteration was skipped for having
fewer than 10 rows, or it applied an update, recording whether the
degeneracy check ran, the degeneracy flag and projection matrix in force,
and the raw and applied solution vectors. -/
inductive IterLog where
  | skipped (numRows : ℕ)
  | applied (ranCheck degenerate : Bool)
      (usedP : Matrix (Fin 6) (Fin 6) ℚ) (rawX appliedX : Fin 6 → ℚ)

/-- Whether a trace entry ran the degeneracy check. -/
def ranCheckB : IterLog → Bool
  | .skipped _ => false
  | .applied rc _ _ _ _ => rc

/-- How many iterations of a trace ran the degeneracy check. -/
def ranCheckCount (tr : List IterLog) : ℕ :=
  tr.countP (fun e => ranCheckB e)

/-- The solver state carried across iterations of `performOptimization`:
the incremental transform, the `isDegenerate` flag and projection matrix
declared before the loop (lines 280-281), the per-iteration trace, and the
early-abort flag of lines 424-425. -/
structure OptState where
  transform : Twist
  isDegenerate : Bool
  matP : Matrix (Fin 6) (Fin 6) ℚ
  trace : List IterLog
  aborted : Bool

/-- Lines 391-396: add the solution vector to the transform. -/
def applyX (tf : Twist) (x : Fin 6 → ℚ) : Twist :=
  ⟨tf.rot_x + x 0, tf.rot_y + x 1, tf.rot_z + x 2,
   tf.px + x 3, tf.py + x 4, tf.pz + x 5⟩

/-- `std::isfinite` on an exact rational, which is always finite; the reset
block of lines 398-411 (stated over the float model as `resetNonFinite`)
is therefore the identity in the exact embedding. -/
def isFiniteQ (_ : ℚ) : Bool :=
  true

/-- Lines 398-411 over exact rationals. -/
def resetFiniteQ (tf : Twist) : Twist :=
  ⟨if isFiniteQ tf.rot_x then tf.rot_x else 0,
   if isFiniteQ tf.rot_y then tf.rot_y else 0,
   if isFiniteQ tf.rot_z then tf.rot_z else 0,
   if isFiniteQ tf.px then tf.px else 0,
   if isFiniteQ tf.py then tf.py else 0,
   if isFiniteQ tf.pz then tf.pz else 0⟩

/-- The early-abort test of lines 413-425, squared to stay rational:
`deltaR < 0.1` iff `c²·(x₀²+x₁²+x₂²) < 0.01` where `c = 180/π` is the
`rad2deg` factor (`radToDegSq` models `c²`), and `deltaT < 0.1` iff
`100²·(x₃²+x₄²+x₅²) < 0.01`. -/
def deltaSmallQ (c : ℚ) (x : Fin 6 → ℚ) : Bool :=
  decide (c * (x 0 ^ 2 + x 1 ^ 2 + x 2 ^ 2) < 1/100) &&
    decide (10000 * (x 3 ^ 2 + x 4 ^ 2 + x 5 ^ 2) < 1/100)

/-- One iteration of the Gauss-Newton loop of `performOptimization`
(lines 284-426): rebuild the residual rows (the `rows` oracle), skip the
iteration when fewer than 10 rows survive (lines 298-301), otherwise
assemble and solve the normal equations (the `linSys` oracle), run the
degeneracy check if and only if this is iteration 0 (lines 381-382),
replace the raw solution by `P·x` when the degeneracy flag is set
(lines 385-388), apply the update, reset non-finite components and
evaluate the abort test. -/
def optStep (O : OdoOracles) (iterCount : ℕ) (st : OptState) : OptState :=
  if O.rows iterCount st.transform < 10 then
    { st with
      trace := st.trace ++ [IterLog.skipped (O.rows iterCount st.transform)] }
  else
    let rawX := (O.linSys iterCount st.transform).2
    let dp := if iterCount = 0 then
        checkDegeneration O.eig (O.linSys iterCount st.transform).1
      else (st.isDegenerate, st.matP)
    let x := if dp.1 then dp.2.mulVec rawX else rawX
    { transform := resetFiniteQ (applyX st.transform x),
      isDegenerate := dp.1,
      matP := dp.2,
      trace := st.trace ++
        [IterLog.applied (decide (iterCount = 0)) dp.1 dp.2 rawX x],
      aborted := deltaSmallQ O.radToDegSq x }

/-- The iteration loop: run `remaining` more iterations starting at index
`iterCount`, stopping once the abort flag is set (the `break` of
line 425). -/
def optLoop (O : OdoOracles) : ℕ → ℕ → OptState → OptState
  | 0, _, st => st
  | remaining+1, iterCount, st =>
    if st.aborted then st
    else optLoop O remaining (iterCount+1) (optStep O iterCount st)

/-- The state at entry of `performOptimization`: the incoming transform,
the `isDegenerate = false` of line 280, an uninitialized projection matrix
(never read before being written; modelled as 0), an empty trace. -/
def initOptState (tf : Twist) : OptState :=
  ⟨tf, false, 0, [], false⟩

/-- `BasicLaserOdometry::performOptimization` (lines 274-427) as a function
of the oracle bundle, the iteration cap and the incoming incremental
transform. -/
def performOptimization (O : OdoOracles) (maxIterations : ℕ) (tf : Twist) :
    OptState :=
  optLoop O maxIterations 0 (initOptState tf)

/-- The degeneracy data in force during a run: the output of the first
iteration's check when that iteration executes (positive iteration cap and
at least 10 rows), else the initial `(false, 0)`. -/
def postCheckData (O : OdoOracles) (maxIterations : ℕ) (tf : Twist) :
    Bool × Matrix (Fin 6) (Fin 6) ℚ :=
  if 0 < maxIterations ∧ 10 ≤ O.rows 0 tf then
    checkDegeneration O.eig (O.linSys 0 tf).1
  else (false, 0)

/-- An applied trace entry is governed by degeneracy data `D` when its flag
and projection matrix are those of `D` and its applied solution is the raw
solution, projected through `D`'s matrix exactly when `D` is marked
degenerate. -/
def GoodEntry (D : Bool × Matrix (Fin 6) (Fin 6) ℚ) : IterLog → Prop
  | .skipped _ => True
  | .applied _ deg p raw app =>
      deg = D.1 ∧ p = D.2 ∧ app = if D.1 then D.2.mulVec raw else raw

/-- Oracle bundle whose residual stage yields no rows on iteration 0 and
ten rows afterwards, with zero linear systems. -/
def oracleSkipFirst : OdoOracles :=
  ⟨fun i _ => if i = 0 then 0 else 10,
   fun _ _ => (0, fun _ => 0),
   fun _ => (fun _ => 0, 0), 1⟩

/-- Oracle bundle with ten rows and zero linear systems on every
iteration. -/
def oracleTenRows : OdoOracles :=
  ⟨fun _ _ => 10, fun _ _ => (0, fun _ => 0),
   fun _ => (fun _ => 0, 0), 1⟩

/-! ## Theorems -/

theorem rotZpt_intensity (T : Trig) (a : ℚ) (p : PointI) :
    (rotZpt T a p).intensity = p.intensity := rfl

theorem rotXpt_intensity (T : Trig) (a : ℚ) (p : PointI) :
    (rotXpt T a p).intensity = p.intensity := rfl

theorem rotYpt_intensity (T : Trig) (a : ℚ) (p : PointI) :
    (rotYpt T a p).intensity = p.intensity := rfl

theorem rotateZXY_intensity (T : Trig) (p : PointI) (az ax ay : ℚ) :
    (rotateZXY T p az ax ay).intensity = p.intensity := rfl

theorem rotateYXZ_intensity (T : Trig) (p : PointI) (ay ax az : ℚ) :
    (rotateYXZ T p ay ax az).intensity = p.intensity := rfl

theorem posVec_rotZpt (T : Trig) (a : ℚ) (p : PointI) :
    posVec (rotZpt T a p) = (rotMatZ T a).mulVec (posVec p) := by
  funext i
  fin_cases i <;>
    simp [posVec, rotZpt, rotMatZ, Matrix.mulVec, Matrix.dotProduct,
      Fin.sum_univ_three] <;> ring

theorem posVec_rotXpt (T : Trig) (a : ℚ) (p : PointI) :
    posVec (rotXpt T a p) = (rotMatX T a).mulVec (posVec p) := by
  funext i
  fin_cases i <;>
    simp [posVec, rotXpt, rotMatX, Matrix.mulVec, Matrix.dotProduct,
      Fin.sum_univ_three] <;> ring

theorem posVec_rotYpt (T : Trig) (a : ℚ) (p : PointI) :
    posVec (rotYpt T a p) = (rotMatY T a).mulVec (posVec p) := by
  funext i
  fin_cases i <;>
    simp [posVec, rotYpt, rotMatY, Matrix.mulVec, Matrix.dotProduct,
      Fin.sum_univ_three] <;> ring

theorem posVec_rotateZXY (T : Trig) (p : PointI) (az ax ay : ℚ) :
    posVec (rotateZXY T p az ax ay) =
      (rotMatY T ay * rotMatX T ax * rotMatZ T az).mulVec (posVec p) := by
  rw [rotateZXY, posVec_rotYpt, posVec_rotXpt, posVec_rotZpt,
    Matrix.mulVec_mulVec, Matrix.mulVec_mulVec]

/-- Claim C1 (counterexample): with a scan period of 2, a point whose
intensity has fractional part 1/2 and a unit incremental translation along
x, the code's `transformToStart` removes the fraction
`s = (1/scanPeriod)·relTime = 1/4` of the motion, not the fraction
`s = relTime = 1/2` asserted by the claim, so the claimed formula
disagrees with the code. -/
theorem transformToStart_claim_s_counterexample :
    transformToStart trigId 2 ⟨0, 0, 0, 1, 0, 0⟩ ⟨0, 0, 0, (1 : ℚ)/2⟩ ≠
      transformToStartClaimS trigId ⟨0, 0, 0, 1, 0, 0⟩ ⟨0, 0, 0, (1 : ℚ)/2⟩ := by
  intro h
  have hx := congrArg PointI.x h
  norm_num [transformToStart, transformToStartClaimS, rotateZXY, rotZpt,
    rotXpt, rotYpt, trigId, truncQ] at hx

/-- Claim C1 (amended): for every input point `p`, `transformToStart`
removes the fraction `s` of the incremental motion, where `s` equals the
fractional part of `p`'s intensity field divided by the scan period: the
output position is `p` translated by `-s` times the incremental translation
and then rotated in Z,X,Y composition order by the negated, `s`-scaled
incremental Euler angles, with intensity unchanged. -/
theorem transformToStart_removes_scaled_motion (T : Trig) (sp : ℚ)
    (tf : Twist) (p : PointI) :
    posVec (transformToStart T sp tf p) =
      (rotMatY T (-(1 / sp * (p.intensity - (truncQ p.intensity : ℚ)) * tf.rot_y)) *
        rotMatX T (-(1 / sp * (p.intensity - (truncQ p.intensity : ℚ)) * tf.rot_x)) *
        rotMatZ T (-(1 / sp * (p.intensity - (truncQ p.intensity : ℚ)) * tf.rot_z))).mulVec
        ![p.x - 1 / sp * (p.intensity - (truncQ p.intensity : ℚ)) * tf.px,
          p.y - 1 / sp * (p.intensity - (truncQ p.intensity : ℚ)) * tf.py,
          p.z - 1 / sp * (p.intensity - (truncQ p.intensity : ℚ)) * tf.pz] ∧
    (transformToStart T sp tf p).intensity = p.intensity := by
  constructor
  · rw [transformToStart, posVec_rotateZXY]
    rfl
  · rw [transformToStart, rotateZXY_intensity]

theorem toEndPoint_intensity (T : Trig) (sp : ℚ) (tf : Twist)
    (imu : ImuState) (p : PointI) :
    (toEndPoint T sp tf imu p).intensity = ((truncQ p.intensity : ℤ) : ℚ) := by
  rw [toEndPoint, rotateYXZ_intensity, rotateZXY_intensity]
  rw [rotateYXZ_intensity, rotateZXY_intensity]

/-- Claim C10: `transformToEnd` returns the cloud's point count, transforms
every point, and on return every point's intensity equals the integer part
(scan-ring id) of its intensity on entry; the fractional relative timestamp
is discarded. -/
theorem transformToEnd_intensity_and_count (T : Trig) (sp : ℚ) (tf : Twist)
    (imu : ImuState) (cloud : List PointI) :
    (transformToEnd T sp tf imu cloud).1 = cloud.length ∧
    (transformToEnd T sp tf imu cloud).2 =
      cloud.map (toEndPoint T sp tf imu) ∧
    (transformToEnd T sp tf imu cloud).2.map PointI.intensity =
      cloud.map (fun p => ((truncQ p.intensity : ℤ) : ℚ)) := by
  refine ⟨rfl, rfl, ?_⟩
  rw [transformToEnd]
  rw [List.map_map]
  exact List.map_congr_left fun p _ => toEndPoint_intensity T sp tf imu p

theorem selection_guard_flip {α : Type} (s d : ℚ) (v : α) :
    (if s ≤ 1/10 ∨ d = 0 then (none : Option α) else some v) =
      (if 1/10 < s ∧ ¬ d = 0 then some v else none) := by
  by_cases h1 : s ≤ 1/10
  · rw [if_pos (Or.inl h1), if_neg]
    intro hc
    exact absurd hc.1 (not_lt.mpr h1)
  · by_cases h2 : d = 0
    · rw [if_pos (Or.inr h2), if_neg]
      intro hc
      exact hc.2 h2
    · rw [if_neg, if_pos ⟨not_le.mp h1, h2⟩]
      intro hc
      rcases hc with hc | hc
      · exact h1 hc
      · exact h2 hc

/-- Claim C4: the weight `s` equals `1` when the iteration count is below 5;
for iterations at or above 5 it equals `1 − 1.8·|d|` for an edge
correspondence with point-to-line distance `d`, and `1 − 1.8·|d|/range` for
a plane correspondence with signed point-to-plane distance `d` and
query-point range; a correspondence contributes a row to the linear system
iff `s > 0.1` and `d` is not exactly zero, and the stored coefficient is the
`s`-scaled unit normal with `s·d` as the distance entry. -/
theorem corner_plane_weight_selection (sq : ℚ → ℚ) (iterCount : ℕ)
    (ori pointSel t1 t2 t3 : PointI) :
    (computeCornerDistanceOne sq iterCount ori pointSel t1 t2 =
      if 1/10 < edgeWeight sq iterCount pointSel t1 t2 ∧
          ¬ edgeDistance sq pointSel t1 t2 = 0 then
        some (ori,
          ⟨edgeWeight sq iterCount pointSel t1 t2 *
              (edgeNormalV sq pointSel t1 t2).x,
            edgeWeight sq iterCount pointSel t1 t2 *
              (edgeNormalV sq pointSel t1 t2).y,
            edgeWeight sq iterCount pointSel t1 t2 *
              (edgeNormalV sq pointSel t1 t2).z,
            edgeWeight sq iterCount pointSel t1 t2 *
              edgeDistance sq pointSel t1 t2⟩)
      else none) ∧
    (computePlaneDistanceOne sq iterCount ori pointSel t1 t2 t3 =
      if 1/10 < planeWeight sq iterCount pointSel t1 t2 t3 ∧
          ¬ planeDistance sq pointSel t1 t2 t3 = 0 then
        some (ori,
          ⟨planeWeight sq iterCount pointSel t1 t2 t3 *
              (planeNormalV sq t1 t2 t3).x,
            planeWeight sq iterCount pointSel t1 t2 t3 *
              (planeNormalV sq t1 t2 t3).y,
            planeWeight sq iterCount pointSel t1 t2 t3 *
              (planeNormalV sq t1 t2 t3).z,
            planeWeight sq iterCount pointSel t1 t2 t3 *
              planeDistance sq pointSel t1 t2 t3⟩)
      else none) := by
  constructor
  · rw [computeCornerDistanceOne, selection_guard_flip]
    rfl
  · rw [computePlaneDistanceOne, selection_guard_flip]
    rfl

theorem cornerCorrOne_fst_of_snd (T : Trig) (sp : ℚ) (tf : Twist)
    (kd : PointI → ℕ × ℚ) (ref : ℕ → PointI) (bound : ℕ) (p : PointI)
    (h2 : 0 ≤ (cornerCorrOne T sp tf kd ref bound p).2) :
    (cornerCorrOne T sp tf kd ref bound p).1 =
      ((kd (transformToStart T sp tf p)).1 : ℤ) := by
  by_cases h : 25 ≤ (kd (transformToStart T sp tf p)).2
  · exfalso
    simp only [cornerCorrOne, if_pos h] at h2
    norm_num at h2
  · simp only [cornerCorrOne, if_neg h]

theorem planeCorrOne_fst_of_snd (T : Trig) (sp : ℚ) (tf : Twist)
    (kd : PointI → ℕ × ℚ) (ref : ℕ → PointI) (bound : ℕ) (p : PointI)
    (h2 : 0 ≤ (planeCorrOne T sp tf kd ref bound p).2.1) :
    (planeCorrOne T sp tf kd ref bound p).1 =
      ((kd (transformToStart T sp tf p)).1 : ℤ) := by
  by_cases h : 25 ≤ (kd (transformToStart T sp tf p)).2
  · exfalso
    simp only [planeCorrOne, if_pos h] at h2
    norm_num at h2
  · simp only [planeCorrOne, if_neg h]

/-- Claim C9: after `findCornerCorrespondence`, every entry whose second
index is non-negative has a non-negative first index that is a valid index
into the reference corner cloud (given that the KD-tree oracle honours the
PCL contract of returning in-range indices); likewise for
`findPlaneCorrespondence` when the second and third indices are both
non-negative.  This is the invariant that keeps the residual builders'
reads, guarded only by the secondary/tertiary sentinels, in bounds. -/
theorem corr_sentinel_implies_first_valid (T : Trig) (sp : ℚ) (tf : Twist)
    (kdC kdS : PointI → ℕ × ℚ) (refC refS : ℕ → PointI) (nC nS : ℕ)
    (sharp flat : List PointI)
    (hC : ∀ p, (kdC p).1 < nC) (hS : ∀ p, (kdS p).1 < nS) :
    (∀ e ∈ findCornerCorrespondence T sp tf kdC refC sharp,
      0 ≤ e.2 → 0 ≤ e.1 ∧ e.1.toNat < nC) ∧
    (∀ e ∈ findPlaneCorrespondence T sp tf kdS refS flat,
      0 ≤ e.2.1 → 0 ≤ e.2.2 → 0 ≤ e.1 ∧ e.1.toNat < nS) := by
  constructor
  · intro e he h2
    rw [findCornerCorrespondence, List.mem_map] at he
    obtain ⟨p, hp, rfl⟩ := he
    rw [cornerCorrOne_fst_of_snd T sp tf kdC refC sharp.length p h2]
    refine ⟨Int.ofNat_nonneg _, ?_⟩
    simpa using hC (transformToStart T sp tf p)
  · intro e he h2 h3
    rw [findPlaneCorrespondence, List.mem_map] at he
    obtain ⟨p, hp, rfl⟩ := he
    rw [planeCorrOne_fst_of_snd T sp tf kdS refS flat.length p h2]
    refine ⟨Int.ofNat_nonneg _, ?_⟩
    simpa using hS (transformToStart T sp tf p)

theorem int_le_two_of_cast (a b : ℤ) (h : (a : ℚ) ≤ (b : ℚ) + 5/2) :
    a ≤ b + 2 := by
  by_contra hc
  push_neg at hc
  have h3 : b + 3 ≤ a := by omega
  have : ((b : ℚ)) + 3 ≤ (a : ℚ) := by exact_mod_cast h3
  linarith

theorem int_ge_neg_two_of_cast (a b : ℤ) (h : (b : ℚ) - 5/2 ≤ (a : ℚ)) :
    b - 2 ≤ a := by
  by_contra hc
  push_neg at hc
  have h3 : a ≤ b - 3 := by omega
  have : (a : ℚ) ≤ ((b : ℚ)) - 3 := by exact_mod_cast h3
  linarith

theorem AccInv_snd_le (C : ℕ → Prop) (pointSel : PointI) (ref : ℕ → PointI)
    (acc : ℤ × ℚ) (h : AccInv C pointSel ref acc) : acc.2 ≤ 25 := by
  rcases h with h | ⟨k, _, _, h2, h3⟩
  · rw [h]
  · rw [h2]
    exact le_of_lt h3

theorem cornerFwd_snd_le (ref : ℕ → PointI) (ring0 : ℤ) (pointSel : PointI)
    (bound : ℕ) : ∀ j acc,
    (cornerFwd ref ring0 pointSel bound j acc).2 ≤ acc.2 := by
  intro j acc
  induction j, acc using cornerFwd.induct ref ring0 pointSel bound with
  | case1 j acc h1 h2 =>
    rw [cornerFwd]
    simp only [if_pos h1, if_pos h2]
    exact le_refl _
  | case2 j acc h1 h2 h3 ih =>
    rw [cornerFwd]
    simp only [if_pos h1, if_neg h2, if_pos h3]
    exact ih
  | case3 j acc h1 h2 h3 h4 ih =>
    rw [cornerFwd]
    simp only [if_pos h1, if_neg h2, if_neg h3, if_pos h4]
    exact le_trans ih (le_of_lt h4)
  | case4 j acc h1 h2 h3 h4 ih =>
    rw [cornerFwd]
    simp only [if_pos h1, if_neg h2, if_neg h3, if_neg h4]
    exact ih
  | case5 j acc h1 =>
    rw [cornerFwd]
    simp only [if_neg h1]
    exact le_refl _

theorem cornerFwd_min (ref : ℕ → PointI) (ring0 : ℤ) (pointSel : PointI)
    (bound : ℕ) : ∀ j acc, ∀ k, j ≤ k → k < bound →
    (∀ m, j ≤ m → m ≤ k →
      ((truncQ (ref m).intensity : ℚ) ≤ (ring0 : ℚ) + 5/2)) →
    ring0 < truncQ (ref k).intensity →
    (cornerFwd ref ring0 pointSel bound j acc).2 ≤
      calcSquaredDiff (ref k) pointSel := by
  intro j acc
  induction j, acc using cornerFwd.induct ref ring0 pointSel bound with
  | case1 j acc h1 h2 =>
    intro k hjk hkb hpre hrk
    exact absurd (hpre j (le_refl j) hjk) (not_le.mpr h2)
  | case2 j acc h1 h2 h3 ih =>
    intro k hjk hkb hpre hrk
    rw [cornerFwd]
    simp only [if_pos h1, if_neg h2, if_pos h3]
    rcases eq_or_lt_of_le hjk with rfl | hlt
    · exact absurd hrk (not_lt.mpr h3)
    · exact ih k hlt hkb (fun m hm1 hm2 => hpre m (Nat.le_of_succ_le hm1) hm2)
        hrk
  | case3 j acc h1 h2 h3 h4 ih =>
    intro k hjk hkb hpre hrk
    rw [cornerFwd]
    simp only [if_pos h1, if_neg h2, if_neg h3, if_pos h4]
    rcases eq_or_lt_of_le hjk with rfl | hlt
    · exact cornerFwd_snd_le ref ring0 pointSel bound (j+1)
        ((j : ℤ), calcSquaredDiff (ref j) pointSel)
    · exact ih k hlt hkb (fun m hm1 hm2 => hpre m (Nat.le_of_succ_le hm1) hm2)
        hrk
  | case4 j acc h1 h2 h3 h4 ih =>
    intro k hjk hkb hpre hrk
    rw [cornerFwd]
    simp only [if_pos h1, if_neg h2, if_neg h3, if_neg h4]
    rcases eq_or_lt_of_le hjk with rfl | hlt
    · exact le_trans
        (cornerFwd_snd_le ref ring0 pointSel bound (j+1) acc) (not_lt.mp h4)
    · exact ih k hlt hkb (fun m hm1 hm2 => hpre m (Nat.le_of_succ_le hm1) hm2)
        hrk
  | case5 j acc h1 =>
    intro k hjk hkb hpre hrk
    exact absurd (lt_of_le_of_lt hjk hkb) h1

theorem cornerFwd_inv (ref : ℕ → PointI) (ring0 : ℤ) (pointSel : PointI)
    (bound : ℕ) (C : ℕ → Prop) (s : ℕ) : ∀ j acc, s ≤ j →
    (∀ m, s ≤ m → m < j →
      ((truncQ (ref m).intensity : ℚ) ≤ (ring0 : ℚ) + 5/2)) →
    (∀ k, FwdCandidate ref bound s ring0 k → C k) →
    AccInv C pointSel ref acc →
    AccInv C pointSel ref (cornerFwd ref ring0 pointSel bound j acc) := by
  intro j acc
  induction j, acc using cornerFwd.induct ref ring0 pointSel bound with
  | case1 j acc h1 h2 =>
    intro hsj hpre hCand hacc
    rw [cornerFwd]
    simp only [if_pos h1, if_pos h2]
    exact hacc
  | case2 j acc h1 h2 h3 ih =>
    intro hsj hpre hCand hacc
    rw [cornerFwd]
    simp only [if_pos h1, if_neg h2, if_pos h3]
    refine ih (Nat.le_succ_of_le hsj) ?_ hCand hacc
    intro m hm1 hm2
    rcases Nat.lt_succ_iff_lt_or_eq.mp hm2 with hm | rfl
    · exact hpre m hm1 hm
    · exact not_lt.mp h2
  | case3 j acc h1 h2 h3 h4 ih =>
    intro hsj hpre hCand hacc
    rw [cornerFwd]
    simp only [if_pos h1, if_neg h2, if_neg h3, if_pos h4]
    have hext : ∀ m, s ≤ m → m < j + 1 →
        ((truncQ (ref m).intensity : ℚ) ≤ (ring0 : ℚ) + 5/2) := by
      intro m hm1 hm2
      rcases Nat.lt_succ_iff_lt_or_eq.mp hm2 with hm | rfl
      · exact hpre m hm1 hm
      · exact not_lt.mp h2
    refine ih (Nat.le_succ_of_le hsj) hext hCand (Or.inr ⟨j, rfl, ?_, rfl, ?_⟩)
    · exact hCand j ⟨hsj, h1, not_le.mp h3,
        fun m hm1 hm2 => hext m hm1 (Nat.lt_succ_of_le hm2)⟩
    · exact lt_of_lt_of_le h4 (AccInv_snd_le C pointSel ref acc hacc)
  | case4 j acc h1 h2 h3 h4 ih =>
    intro hsj hpre hCand hacc
    rw [cornerFwd]
    simp only [if_pos h1, if_neg h2, if_neg h3, if_neg h4]
    refine ih (Nat.le_succ_of_le hsj) ?_ hCand hacc
    intro m hm1 hm2
    rcases Nat.lt_succ_iff_lt_or_eq.mp hm2 with hm | rfl
    · exact hpre m hm1 hm
    · exact not_lt.mp h2
  | case5 j acc h1 =>
    intro hsj hpre hCand hacc
    rw [cornerFwd]
    simp only [if_neg h1]
    exact hacc

theorem cornerBwd_snd_le (ref : ℕ → PointI) (ring0 : ℤ) (pointSel : PointI) :
    ∀ j acc, (cornerBwd ref ring0 pointSel j acc).2 ≤ acc.2 := by
  intro j
  induction j with
  | zero => intro acc; exact le_refl _
  | succ j ih =>
    intro acc
    simp only [cornerBwd]
    by_cases hb : ((truncQ (ref j).intensity : ℚ)) < (ring0 : ℚ) - 5/2
    · simp only [if_pos hb]
      exact le_refl _
    · simp only [if_neg hb]
      by_cases hs : ring0 ≤ truncQ (ref j).intensity
      · simp only [if_pos hs]
        exact ih acc
      · simp only [if_neg hs]
        by_cases hd : calcSquaredDiff (ref j) pointSel < acc.2
        · simp only [if_pos hd]
          exact le_trans (ih _) (le_of_lt hd)
        · simp only [if_neg hd]
          exact ih acc

theorem cornerBwd_min (ref : ℕ → PointI) (ring0 : ℤ) (pointSel : PointI) :
    ∀ j acc k, k < j →
    (∀ m, k ≤ m → m < j →
      ((ring0 : ℚ) - 5/2 ≤ (truncQ (ref m).intensity : ℚ))) →
    truncQ (ref k).intensity < ring0 →
    (cornerBwd ref ring0 pointSel j acc).2 ≤
      calcSquaredDiff (ref k) pointSel := by
  intro j
  induction j with
  | zero =>
    intro acc k hk
    exact absurd hk (Nat.not_lt_zero k)
  | succ j ih =>
    intro acc k hk hpre hrk
    simp only [cornerBwd]
    by_cases hb : ((truncQ (ref j).intensity : ℚ)) < (ring0 : ℚ) - 5/2
    · exact absurd (hpre j (Nat.lt_succ_iff.mp hk) (Nat.lt_succ_self j))
        (not_le.mpr hb)
    · simp only [if_neg hb]
      by_cases hs : ring0 ≤ truncQ (ref j).intensity
      · simp only [if_pos hs]
        rcases Nat.lt_succ_iff_lt_or_eq.mp hk with hlt | rfl
        · exact ih acc k hlt (fun m hm1 hm2 => hpre m hm1 (Nat.lt_succ_of_lt hm2))
            hrk
        · exact absurd hrk (not_lt.mpr hs)
      · simp only [if_neg hs]
        rcases Nat.lt_succ_iff_lt_or_eq.mp hk with hlt | rfl
        · by_cases hd : calcSquaredDiff (ref j) pointSel < acc.2
          · simp only [if_pos hd]
            exact ih _ k hlt
              (fun m hm1 hm2 => hpre m hm1 (Nat.lt_succ_of_lt hm2)) hrk
          · simp only [if_neg hd]
            exact ih acc k hlt
              (fun m hm1 hm2 => hpre m hm1 (Nat.lt_succ_of_lt hm2)) hrk
        · by_cases hd : calcSquaredDiff (ref k) pointSel < acc.2
          · simp only [if_pos hd]
            exact cornerBwd_snd_le ref ring0 pointSel k
              ((k : ℤ), calcSquaredDiff (ref k) pointSel)
          · simp only [if_neg hd]
            exact le_trans (cornerBwd_snd_le ref ring0 pointSel k acc)
              (not_lt.mp hd)

theorem cornerBwd_inv (ref : ℕ → PointI) (ring0 : ℤ) (pointSel : PointI)
    (C : ℕ → Prop) (ind : ℕ) : ∀ j acc, j ≤ ind →
    (∀ m, j ≤ m → m < ind →
      ((ring0 : ℚ) - 5/2 ≤ (truncQ (ref m).intensity : ℚ))) →
    (∀ k, BwdCandidate ref ind ring0 k → C k) →
    AccInv C pointSel ref acc →
    AccInv C pointSel ref (cornerBwd ref ring0 pointSel j acc) := by
  intro j
  induction j with
  | zero =>
    intro acc hj hpre hCand hacc
    exact hacc
  | succ j ih =>
    intro acc hj hpre hCand hacc
    have hjind : j < ind := Nat.lt_of_succ_le hj
    simp only [cornerBwd]
    by_cases hb : ((truncQ (ref j).intensity : ℚ)) < (ring0 : ℚ) - 5/2
    · simp only [if_pos hb]
      exact hacc
    · simp only [if_neg hb]
      have hext : ∀ m, j ≤ m → m < ind →
          ((ring0 : ℚ) - 5/2 ≤ (truncQ (ref m).intensity : ℚ)) := by
        intro m hm1 hm2
        rcases eq_or_lt_of_le hm1 with rfl | hm
        · exact not_lt.mp hb
        · exact hpre m hm hm2
      by_cases hs : ring0 ≤ truncQ (ref j).intensity
      · simp only [if_pos hs]
        exact ih acc (le_of_lt hjind) hext hCand hacc
      · simp only [if_neg hs]
        by_cases hd : calcSquaredDiff (ref j) pointSel < acc.2
        · simp only [if_pos hd]
          refine ih _ (le_of_lt hjind) hext hCand
            (Or.inr ⟨j, rfl, ?_, rfl, ?_⟩)
          · exact hCand j ⟨hjind, not_le.mp hs, hext⟩
          · exact lt_of_lt_of_le hd (AccInv_snd_le C pointSel ref acc hacc)
        · simp only [if_neg hd]
          exact ih acc (le_of_lt hjind) hext hCand hacc

/-- Claim C5: for every corner feature point whose second edge index is
non-negative after `findCornerCorrespondence`, the selected second
reference point lies on a scan ring whose integer id differs from the first
match's ring id by at least 1 and at most 2, has squared distance to the
reprojected query point strictly below 25, and is closest among the points
reachable before the directional scans stop at a ring difference exceeding
2.5; an edge pair never has both points on the same ring. -/
theorem corner_second_point_props (T : Trig) (sp : ℚ) (tf : Twist)
    (kd : PointI → ℕ × ℚ) (ref : ℕ → PointI) (bound : ℕ) (p : PointI)
    (pSel : PointI) (ind : ℕ) (ring0 : ℤ)
    (hpSel : pSel = transformToStart T sp tf p)
    (hind : ind = (kd pSel).1)
    (hring : ring0 = truncQ (ref ind).intensity)
    (h2 : 0 ≤ (cornerCorrOne T sp tf kd ref bound p).2) :
    ∃ k : ℕ, (cornerCorrOne T sp tf kd ref bound p).2 = (k : ℤ) ∧
      (cornerCorrOne T sp tf kd ref bound p).1 = (ind : ℤ) ∧
      1 ≤ |truncQ (ref k).intensity - ring0| ∧
      |truncQ (ref k).intensity - ring0| ≤ 2 ∧
      truncQ (ref k).intensity ≠ ring0 ∧
      calcSquaredDiff (ref k) pSel < 25 ∧
      (FwdCandidate ref bound (ind + 1) ring0 k ∨
        BwdCandidate ref ind ring0 k) ∧
      ∀ k', FwdCandidate ref bound (ind + 1) ring0 k' ∨
          BwdCandidate ref ind ring0 k' →
        calcSquaredDiff (ref k) pSel ≤ calcSquaredDiff (ref k') pSel := by
  subst hpSel
  subst hind
  subst hring
  by_cases hq : 25 ≤ (kd (transformToStart T sp tf p)).2
  · exfalso
    simp only [cornerCorrOne, if_pos hq] at h2
    norm_num at h2
  · set pSel := transformToStart T sp tf p with hpSel
    set ind := (kd pSel).1 with hind
    set ring0 := truncQ (ref ind).intensity with hring
    set fw := cornerFwd ref ring0 pSel bound (ind + 1) (-1, 25) with hfw
    set r := cornerBwd ref ring0 pSel ind fw with hr
    have hres : cornerCorrOne T sp tf kd ref bound p = ((ind : ℤ), r.1) := by
      simp only [cornerCorrOne, if_neg hq]
    have hCfw : ∀ k, FwdCandidate ref bound (ind + 1) ring0 k →
        FwdCandidate ref bound (ind + 1) ring0 k ∨ BwdCandidate ref ind ring0 k :=
      fun k hk => Or.inl hk
    have hCbw : ∀ k, BwdCandidate ref ind ring0 k →
        FwdCandidate ref bound (ind + 1) ring0 k ∨ BwdCandidate ref ind ring0 k :=
      fun k hk => Or.inr hk
    have hinvFw : AccInv
        (fun k => FwdCandidate ref bound (ind + 1) ring0 k ∨
          BwdCandidate ref ind ring0 k) pSel ref fw := by
      refine cornerFwd_inv ref ring0 pSel bound _ (ind + 1) (ind + 1) (-1, 25)
        (le_refl _) ?_ hCfw (Or.inl rfl)
      intro m hm1 hm2
      exact absurd (lt_of_le_of_lt hm1 hm2) (lt_irrefl _)
    have hinv : AccInv
        (fun k => FwdCandidate ref bound (ind + 1) ring0 k ∨
          BwdCandidate ref ind ring0 k) pSel ref r := by
      refine cornerBwd_inv ref ring0 pSel _ ind ind fw (le_refl _) ?_ hCbw hinvFw
      intro m hm1 hm2
      exact absurd (lt_of_le_of_lt hm1 hm2) (lt_irrefl _)
    rw [hres] at h2
    rcases hinv with hl | ⟨k, hk1, hkC, hk2, hk3⟩
    · exfalso
      rw [hl] at h2
      norm_num at h2
    · refine ⟨k, ?_, ?_, ?_, ?_, ?_, ?_, hkC, ?_⟩
      · rw [hres]
        exact hk1
      · rw [hres]
      · rcases hkC with ⟨hs, hb, hr0, hall⟩ | ⟨hkind, hrk, hall⟩
        · have hcast := int_le_two_of_cast _ _ (hall k hs (le_refl k))
          have hpos : 0 < truncQ (ref k).intensity - ring0 := by omega
          rw [abs_of_pos hpos]
          omega
        · have hcast := int_ge_neg_two_of_cast _ _ (hall k (le_refl k) hkind)
          have hneg : truncQ (ref k).intensity - ring0 < 0 := by omega
          rw [abs_of_neg hneg]
          omega
      · rcases hkC with ⟨hs, hb, hr0, hall⟩ | ⟨hkind, hrk, hall⟩
        · have hcast := int_le_two_of_cast _ _ (hall k hs (le_refl k))
          have hpos : 0 < truncQ (ref k).intensity - ring0 := by omega
          rw [abs_of_pos hpos]
          omega
        · have hcast := int_ge_neg_two_of_cast _ _ (hall k (le_refl k) hkind)
          have hneg : truncQ (ref k).intensity - ring0 < 0 := by omega
          rw [abs_of_neg hneg]
          omega
      · rcases hkC with ⟨hs, hb, hr0, hall⟩ | ⟨hkind, hrk, hall⟩
        · exact ne_of_gt hr0
        · exact ne_of_lt hrk
      · exact hk3
      · intro k' hk'
        rw [← hk2]
        rcases hk' with ⟨hs', hb', hr0', hall'⟩ | ⟨hk'ind, hrk', hall'⟩
        · exact le_trans (cornerBwd_snd_le ref ring0 pSel ind fw)
            (cornerFwd_min ref ring0 pSel bound (ind + 1) (-1, 25) k' hs' hb'
              hall' hr0')
        · exact cornerBwd_min ref ring0 pSel ind fw k' hk'ind hall' hrk'

theorem cornerFwd_step (ref : ℕ → PointI) (ring0 : ℤ) (pointSel : PointI)
    (bound : ℕ) (j : ℕ) (acc : ℤ × ℚ) :
    cornerFwd ref ring0 pointSel bound j acc =
      if j < bound then
        if ((truncQ (ref j).intensity : ℚ)) > (ring0 : ℚ) + 5/2 then acc
        else if truncQ (ref j).intensity ≤ ring0 then
          cornerFwd ref ring0 pointSel bound (j+1) acc
        else if calcSquaredDiff (ref j) pointSel < acc.2 then
          cornerFwd ref ring0 pointSel bound (j+1)
            ((j : ℤ), calcSquaredDiff (ref j) pointSel)
        else cornerFwd ref ring0 pointSel bound (j+1) acc
      else acc := by
  conv_lhs => rw [cornerFwd]

theorem transformToStart_origin :
    transformToStart trigId 1 twistZero ⟨0, 0, 0, 0⟩ = ⟨0, 0, 0, 0⟩ := by
  simp only [transformToStart, rotateZXY, rotZpt, rotXpt, rotYpt, trigId,
    twistZero, truncQ]
  norm_num

theorem cornerCorrOne_ladder :
    cornerCorrOne trigId 1 twistZero kdZero refLadder 2 ⟨0, 0, 0, 0⟩ =
      (0, 1) := by
  have hfw : cornerFwd refLadder 0 (⟨0, 0, 0, 0⟩ : PointI) 2 1 (-1, 25) =
      (1, 0) := by
    rw [cornerFwd_step]
    norm_num [refLadder, truncQ, calcSquaredDiff]
    rw [cornerFwd_step]
    norm_num
  simp only [cornerCorrOne, transformToStart_origin, kdZero]
  norm_num [refLadder, truncQ]
  rw [hfw]
  simp only [cornerBwd]

theorem corner_second_point_props_witness :
    0 ≤ (cornerCorrOne trigId 1 twistZero kdZero refLadder 2 ⟨0, 0, 0, 0⟩).2 ∧
    ∃ k : ℕ,
      (cornerCorrOne trigId 1 twistZero kdZero refLadder 2
        ⟨0, 0, 0, 0⟩).2 = (k : ℤ) ∧
      truncQ (refLadder k).intensity ≠
        truncQ (refLadder
          (kdZero (transformToStart trigId 1 twistZero ⟨0, 0, 0, 0⟩)).1).intensity := by
  have hyp : 0 ≤ (cornerCorrOne trigId 1 twistZero kdZero refLadder 2
      ⟨0, 0, 0, 0⟩).2 := by
    rw [cornerCorrOne_ladder]
    norm_num
  refine ⟨hyp, ?_⟩
  obtain ⟨k, hk1, hk2, hk3, hk4, hne, hd, hC, hmin⟩ :=
    corner_second_point_props trigId 1 twistZero kdZero refLadder 2
      ⟨0, 0, 0, 0⟩ _ _ _ rfl rfl rfl hyp
  exact ⟨k, hk1, hne⟩

theorem corr_sentinel_implies_first_valid_witness :
    (∀ p : PointI, (kdZero p).1 < 2) ∧
    (∀ e ∈ findCornerCorrespondence trigId 1 twistZero kdZero refLadder
        [⟨0, 0, 0, 0⟩, ⟨0, 0, 0, 0⟩],
      0 ≤ e.2 → 0 ≤ e.1 ∧ e.1.toNat < 2) := by
  have hc : ∀ p : PointI, (kdZero p).1 < 2 := fun _ => by norm_num [kdZero]
  exact ⟨hc,
    (corr_sentinel_implies_first_valid trigId 1 twistZero kdZero kdZero
      refLadder refLadder 2 2 [⟨0, 0, 0, 0⟩, ⟨0, 0, 0, 0⟩] [] hc hc).1⟩

theorem searchFwdReads_step (ref : ℕ → PointI) (ring0 : ℤ) (bound j : ℕ) :
    searchFwdReads ref ring0 bound j =
      if j < bound then
        if ((truncQ (ref j).intensity : ℚ)) > (ring0 : ℚ) + 5/2 then [j]
        else j :: searchFwdReads ref ring0 bound (j+1)
      else [] := by
  conv_lhs => rw [searchFwdReads]

/-- Claim C6 (refuted; the source's own comments at lines 606-607 and
804-805 acknowledge the bug): with a reference cloud of size 1 (a single
origin point on ring 1) and a current sweep of 3 flat features, the
forward secondary/tertiary scan of `findPlaneCorrespondence` reads
reference-cloud indices 1 and 2 — the loop is bounded by the current
sweep's feature count instead of the reference cloud's size, so the read
at index 2 is out of bounds for the size-1 cloud. -/
theorem plane_search_reads_out_of_bounds :
    2 ∈ planeReadIndices trigId 1 twistZero kdZero refRing1 3
      ⟨0, 0, 0, 0⟩ ∧ ¬ 2 < 1 := by
  have e3 : searchFwdReads refRing1 1 3 3 = [] := by
    rw [searchFwdReads_step]
    norm_num
  have e2 : searchFwdReads refRing1 1 3 2 = [2] := by
    rw [searchFwdReads_step]
    norm_num [refRing1, truncQ]
    rw [e3]
  have e1 : searchFwdReads refRing1 1 3 1 = [1, 2] := by
    rw [searchFwdReads_step]
    norm_num [refRing1, truncQ]
    rw [e2]
  have hpr : planeReadIndices trigId 1 twistZero kdZero refRing1 3
      ⟨0, 0, 0, 0⟩ = [0, 1, 2] := by
    simp only [planeReadIndices, transformToStart_origin, kdZero]
    norm_num [refRing1, truncQ]
    rw [e1]
    simp [searchBwdReads]
  constructor
  · rw [hpr]
    norm_num
  · norm_num

/-- Claim C7: after a solver iteration applies its update to the
incremental transform, each of the six components is checked independently:
a component whose updated value is non-finite (NaN or an infinity) is reset
to zero while every finite component keeps its updated value; each output
component is a function of its own input component and solution entry
alone, so no single non-finite component resets any other component or the
whole transform. -/
theorem update_reset_componentwise (tf : TwistV) (x : Fin 6 → FloatV) :
    ∀ i : Fin 6,
      (resetNonFinite (updateTransformV tf x)).comp i =
        if ((tf.comp i).addV (x i)).isFiniteV then (tf.comp i).addV (x i)
        else FloatV.fin 0 := by
  intro i
  fin_cases i <;> rfl

/-- Claim C8: on the first call to `process` (uninitialized state) no
optimization runs and no incremental transform is computed: the less-sharp
and less-flat clouds become the reference clouds and are indexed, the
cumulative pose's pitch and roll are seeded from the IMU start attitude
while yaw and the translation stay zero, and the engine transitions to the
steady state unconditionally — the result does not depend on the
steady-state branch at all. -/
theorem process_first_call (steadyStep : EngineState → EngineState)
    (sharp lessSharp flat lessFlat : List PointI) (imuP imuY imuR : ℚ) :
    process steadyStep (initEngine sharp lessSharp flat lessFlat
      imuP imuY imuR) =
      ⟨true, 0, twistZero, ⟨imuP, 0, imuR, 0, 0, 0⟩, sharp, [], flat, [],
       lessSharp, lessFlat, lessSharp, lessFlat, imuP, imuY, imuR⟩ := by
  simp only [process, initEngine, twistZero]
  norm_num

/-- Claim C3: a solver iteration in which fewer than 10 points survive the
residual-building stage performs no update: the incremental transform, the
degeneracy state and the abort flag are unchanged (the trace only records
the skip — no linear system is consulted, no error is possible since the
step is a total function), and when the loop was not aborted it simply
continues with the next iteration. -/
theorem skip_iteration_no_update (O : OdoOracles) (iterCount : ℕ)
    (st : OptState) (h : O.rows iterCount st.transform < 10) :
    optStep O iterCount st =
      ⟨st.transform, st.isDegenerate, st.matP,
       st.trace ++ [IterLog.skipped (O.rows iterCount st.transform)],
       st.aborted⟩ ∧
    ∀ remaining, st.aborted = false →
      optLoop O (remaining+1) iterCount st =
        optLoop O remaining (iterCount+1) (optStep O iterCount st) := by
  constructor
  · simp only [optStep, if_pos h]
  · intro remaining hab
    simp only [optLoop, hab]
    norm_num

theorem skip_iteration_no_update_witness :
    oracleSkipFirst.rows 0 (initOptState twistZero).transform < 10 ∧
    (optStep oracleSkipFirst 0 (initOptState twistZero)).transform =
      twistZero := by
  have h : oracleSkipFirst.rows 0 (initOptState twistZero).transform < 10 := by
    norm_num [oracleSkipFirst, initOptState]
  refine ⟨h, ?_⟩
  rw [(skip_iteration_no_update oracleSkipFirst 0 (initOptState twistZero)
    h).1]
  rfl

theorem leadCountAux_ge (e : Fin 6 → ℚ) : ∀ i, i ≤ leadCountAux e i := by
  intro i
  induction i using leadCountAux.induct e with
  | case1 i h hlt ih =>
    rw [leadCountAux]
    simp only [dif_pos h, if_pos hlt]
    exact le_trans (Nat.le_succ i) ih
  | case2 i h hlt =>
    rw [leadCountAux]
    simp only [dif_pos h, if_neg hlt]
    exact le_refl i
  | case3 i h =>
    rw [leadCountAux]
    simp only [dif_neg h]
    exact le_refl i

theorem leadCountAux_succ (e : Fin 6 → ℚ) (i : ℕ) (h : i < 6)
    (hlt : e ⟨i, h⟩ < 10) : leadCountAux e i = leadCountAux e (i+1) := by
  rw [leadCountAux]
  simp only [dif_pos h, if_pos hlt]

theorem leadCountAux_stop (e : Fin 6 → ℚ) (i : ℕ)
    (h : ¬ i < 6 ∨ ∃ h6 : i < 6, ¬ e ⟨i, h6⟩ < 10) :
    leadCountAux e i = i := by
  rcases h with h | ⟨h6, hge⟩
  · rw [leadCountAux]
    simp only [dif_neg h]
  · rw [leadCountAux]
    simp only [dif_pos h6, if_neg hge]

theorem degenScan_eq (e : Fin 6 → ℚ) : ∀ i v2 deg,
    degenScan e i v2 deg =
      (Matrix.of fun (r : Fin 6) (c : Fin 6) =>
        if i ≤ (r : ℕ) ∧ (r : ℕ) < leadCountAux e i then 0 else v2 r c,
       deg || decide (i < leadCountAux e i)) := by
  intro i v2 deg
  induction i, v2, deg using degenScan.induct e with
  | case1 i v2 deg h hlt ih =>
    rw [degenScan]
    simp only [dif_pos h, if_pos hlt]
    rw [ih]
    have hlead : leadCountAux e i = leadCountAux e (i+1) :=
      leadCountAux_succ e i h hlt
    have hge : i + 1 ≤ leadCountAux e (i+1) := leadCountAux_ge e (i+1)
    rw [Prod.mk.injEq]
    constructor
    · apply Matrix.ext
      intro r c
      simp only [Matrix.of_apply]
      by_cases hri : (r : ℕ) = i
      · have hrfin : r = ⟨i, h⟩ := Fin.ext hri
        subst hrfin
        simp only [Matrix.updateRow_self]
        have hc1 : ¬ (i + 1 ≤ i ∧ i < leadCountAux e (i+1)) := by omega
        have hc2 : i ≤ i ∧ i < leadCountAux e i := by omega
        rw [if_neg hc1, if_pos hc2]
        rfl
      · have hrne : r ≠ ⟨i, h⟩ := fun hcon => hri (by rw [hcon])
        rw [Matrix.updateRow_ne hrne]
        have hcond : (i + 1 ≤ (r : ℕ) ∧ (r : ℕ) < leadCountAux e (i+1)) ↔
            (i ≤ (r : ℕ) ∧ (r : ℕ) < leadCountAux e i) := by
          rw [← hlead]
          omega
        by_cases hc : i + 1 ≤ (r : ℕ) ∧ (r : ℕ) < leadCountAux e (i+1)
        · rw [if_pos hc, if_pos (hcond.mp hc)]
        · rw [if_neg hc, if_neg (fun hx => hc (hcond.mpr hx))]
    · have h1 : i < leadCountAux e i := by omega
      simp [h1]
  | case2 i v2 deg h hlt =>
    rw [degenScan]
    simp only [dif_pos h, if_neg hlt]
    have hlead : leadCountAux e i = i :=
      leadCountAux_stop e i (Or.inr ⟨h, hlt⟩)
    rw [Prod.mk.injEq]
    constructor
    · apply Matrix.ext
      intro r c
      simp only [Matrix.of_apply]
      have : ¬ (i ≤ (r : ℕ) ∧ (r : ℕ) < leadCountAux e i) := by omega
      rw [if_neg this]
    · have : ¬ i < leadCountAux e i := by omega
      simp [this]
  | case3 i v2 deg h =>
    rw [degenScan]
    simp only [dif_neg h]
    have hlead : leadCountAux e i = i := leadCountAux_stop e i (Or.inl h)
    rw [Prod.mk.injEq]
    constructor
    · apply Matrix.ext
      intro r c
      simp only [Matrix.of_apply]
      have : ¬ (i ≤ (r : ℕ) ∧ (r : ℕ) < leadCountAux e i) := by omega
      rw [if_neg this]
    · have : ¬ i < leadCountAux e i := by omega
      simp [this]

theorem leadCountAux_zero_pos_iff (e : Fin 6 → ℚ) :
    0 < leadCountAux e 0 ↔ e 0 < 10 := by
  have h6 : (0 : ℕ) < 6 := by norm_num
  have h0 : (⟨0, h6⟩ : Fin 6) = 0 := rfl
  constructor
  · intro hpos
    by_contra hge
    have hstop := leadCountAux_stop e 0 (Or.inr ⟨h6, by rw [h0]; exact hge⟩)
    omega
  · intro hlt
    have hsucc := leadCountAux_succ e 0 h6 (by rw [h0]; exact hlt)
    have hge := leadCountAux_ge e 1
    norm_num at hsucc
    omega

theorem checkDegeneration_eq
    (eig : Matrix (Fin 6) (Fin 6) ℚ → (Fin 6 → ℚ) × Matrix (Fin 6) (Fin 6) ℚ)
    (A : Matrix (Fin 6) (Fin 6) ℚ) :
    checkDegeneration eig A =
      (decide ((eig A).1 0 < 10),
       matInverse (eig A).2 * zeroLead (leadCount (eig A).1) (eig A).2) := by
  rw [checkDegeneration, Prod.mk.injEq]
  constructor
  · rw [degenScan_eq]
    simp only [Bool.false_or]
    rw [decide_eq_decide]
    exact leadCountAux_zero_pos_iff (eig A).1
  · rw [degenScan_eq]
    congr 1
    apply Matrix.ext
    intro r c
    simp only [zeroLead, Matrix.of_apply, leadCount]
    have hiff : (0 ≤ (r : ℕ) ∧ (r : ℕ) < leadCountAux (eig A).1 0) ↔
        ((r : ℕ) < leadCountAux (eig A).1 0) := by omega
    by_cases hc : (r : ℕ) < leadCountAux (eig A).1 0
    · rw [if_pos (hiff.mpr hc), if_pos hc]
    · rw [if_neg (fun hx => hc (hiff.mp hx)), if_neg hc]

theorem leadCountAux_lt_iff (e : Fin 6 → ℚ) : ∀ s (i : Fin 6), s ≤ (i : ℕ) →
    ((i : ℕ) < leadCountAux e s ↔
      ∀ j : Fin 6, s ≤ (j : ℕ) → j ≤ i → e j < 10) := by
  intro s
  induction s using leadCountAux.induct e with
  | case1 s h hlt ih =>
    intro i hsi
    rw [leadCountAux_succ e s h hlt]
    rcases eq_or_lt_of_le hsi with heq | hslt
    · constructor
      · intro _ j hj1 hj2
        rw [Fin.le_def] at hj2
        have hjeq : j = ⟨s, h⟩ := Fin.ext (show (j : ℕ) = s by omega)
        rw [hjeq]
        exact hlt
      · intro _
        have := leadCountAux_ge e (s+1)
        omega
    · rw [ih i hslt]
      constructor
      · intro hall j hj1 hj2
        rcases eq_or_lt_of_le hj1 with heq2 | hlt2
        · have hjeq : j = ⟨s, h⟩ := Fin.ext (show (j : ℕ) = s by omega)
          rw [hjeq]
          exact hlt
        · exact hall j (by omega) hj2
      · intro hall j hj1 hj2
        exact hall j (by omega) hj2
  | case2 s h hlt =>
    intro i hsi
    rw [leadCountAux_stop e s (Or.inr ⟨h, hlt⟩)]
    constructor
    · intro hcon
      omega
    · intro hall
      exfalso
      refine hlt (hall ⟨s, h⟩ (le_refl s) ?_)
      rw [Fin.le_def]
      exact hsi
  | case3 s h =>
    intro i hsi
    exfalso
    have := i.isLt
    omega

theorem leadCount_lt_iff (e : Fin 6 → ℚ) (i : Fin 6) :
    ((i : ℕ) < leadCount e ↔ ∀ j : Fin 6, j ≤ i → e j < 10) := by
  rw [leadCount]
  have := leadCountAux_lt_iff e 0 i (Nat.zero_le _)
  simpa using this

theorem optStep_deg_of_ne (O : OdoOracles) (i : ℕ) (st : OptState)
    (h : i ≠ 0) :
    (optStep O i st).isDegenerate = st.isDegenerate ∧
    (optStep O i st).matP = st.matP := by
  by_cases hr : O.rows i st.transform < 10
  · simp only [optStep, if_pos hr]
    exact ⟨trivial, trivial⟩
  · simp only [optStep, if_neg hr, if_neg h]
    exact ⟨trivial, trivial⟩

theorem optStep_trace_of_ne (O : OdoOracles) (i : ℕ) (st : OptState)
    (h : i ≠ 0) :
    ∃ en, (optStep O i st).trace = st.trace ++ [en] ∧
      ranCheckB en = false ∧ GoodEntry (st.isDegenerate, st.matP) en := by
  by_cases hr : O.rows i st.transform < 10
  · refine ⟨IterLog.skipped (O.rows i st.transform), ?_, rfl, trivial⟩
    simp only [optStep, if_pos hr]
  · refine ⟨IterLog.applied (decide (i = 0)) st.isDegenerate st.matP
      (O.linSys i st.transform).2
      (if st.isDegenerate then st.matP.mulVec (O.linSys i st.transform).2
       else (O.linSys i st.transform).2), ?_, ?_, ?_⟩
    · simp only [optStep, if_neg hr, if_neg h]
    · simp only [ranCheckB, decide_eq_false h]
    · exact ⟨rfl, rfl, rfl⟩

theorem optLoop_tail (O : OdoOracles)
    (D : Bool × Matrix (Fin 6) (Fin 6) ℚ) :
    ∀ remaining iterCount st, 1 ≤ iterCount →
    st.isDegenerate = D.1 → st.matP = D.2 →
    ∃ ext, (optLoop O remaining iterCount st).trace = st.trace ++ ext ∧
      (∀ en ∈ ext, ranCheckB en = false ∧ GoodEntry D en) ∧
      (optLoop O remaining iterCount st).isDegenerate = D.1 ∧
      (optLoop O remaining iterCount st).matP = D.2 := by
  intro remaining
  induction remaining with
  | zero =>
    intro i st h1 hD1 hD2
    exact ⟨[], by simp [optLoop], by simp, hD1, hD2⟩
  | succ n ih =>
    intro i st h1 hD1 hD2
    simp only [optLoop]
    by_cases hab : st.aborted
    · simp only [if_pos hab]
      exact ⟨[], by simp, by simp, hD1, hD2⟩
    · simp only [if_neg hab]
      have hne : i ≠ 0 := by omega
      obtain ⟨hd1, hd2⟩ := optStep_deg_of_ne O i st hne
      obtain ⟨en, htr, hrc, hge⟩ := optStep_trace_of_ne O i st hne
      obtain ⟨ext, he, hg, hl1, hl2⟩ := ih (i+1) (optStep O i st) (by omega)
        (hd1.trans hD1) (hd2.trans hD2)
      refine ⟨en :: ext, ?_, ?_, hl1, hl2⟩
      · rw [he, htr, List.append_assoc]
        rfl
      · intro x hx
        rcases List.mem_cons.mp hx with rfl | hx2
        · refine ⟨hrc, ?_⟩
          rw [hD1, hD2] at hge
          exact hge
        · exact hg x hx2

/-- Claim C2 (amended): during a sweep's optimization the eigendecomposition
-based degeneracy check runs only on the first solver iteration, and runs
there exactly when that iteration retains at least 10 points (with a
positive iteration cap) — a first iteration with fewer than 10 points skips
the check, so it runs at most once, not unconditionally once; eigenvalues
are scanned in ascending index order, each eigenvalue below 10 zeroes the
corresponding row of a copy of the eigenvector matrix and marks the system
degenerate, scanning stops at the first eigenvalue at or above 10, and the
projection matrix is `P = V⁻¹·V'`; on every iteration of the sweep the raw
solution is replaced by `P·x` exactly when the check marked the system
degenerate, with the flag and `P` fixed at their first-iteration values. -/
theorem performOptimization_degeneracy (O : OdoOracles)
    (maxIterations : ℕ) (tf : Twist) :
    (∀ en ∈ (performOptimization O maxIterations tf).trace.tail,
      ranCheckB en = false) ∧
    ranCheckCount (performOptimization O maxIterations tf).trace =
      (if 0 < maxIterations ∧ 10 ≤ O.rows 0 tf then 1 else 0) ∧
    (∀ A, checkDegeneration O.eig A =
      (decide ((O.eig A).1 0 < 10),
       matInverse (O.eig A).2 *
         zeroLead (leadCount (O.eig A).1) (O.eig A).2)) ∧
    (∀ (e : Fin 6 → ℚ) (i : Fin 6),
      ((i : ℕ) < leadCount e ↔ ∀ j : Fin 6, j ≤ i → e j < 10)) ∧
    (∀ en ∈ (performOptimization O maxIterations tf).trace,
      GoodEntry (postCheckData O maxIterations tf) en) := by
  cases maxIterations with
  | zero =>
    refine ⟨?_, ?_, fun A => checkDegeneration_eq O.eig A,
      fun e i => leadCount_lt_iff e i, ?_⟩
    · intro en hen
      simp [performOptimization, optLoop, initOptState] at hen
    · simp [performOptimization, optLoop, initOptState, ranCheckCount]
    · intro en hen
      simp [performOptimization, optLoop, initOptState] at hen
  | succ m =>
    have hstep0 : performOptimization O (m+1) tf =
        optLoop O m 1 (optStep O 0 (initOptState tf)) := by
      simp [performOptimization, optLoop, initOptState]
    by_cases hr : O.rows 0 tf < 10
    · have hD : postCheckData O (m+1) tf =
          (false, (0 : Matrix (Fin 6) (Fin 6) ℚ)) := by
        rw [postCheckData, if_neg]
        intro hcon
        omega
      have hstepeq : optStep O 0 (initOptState tf) =
          ⟨tf, false, 0, [IterLog.skipped (O.rows 0 tf)], false⟩ := by
        simp [optStep, initOptState, if_pos hr]
      obtain ⟨ext, he, hg, hl1, hl2⟩ := optLoop_tail O (false, 0) m 1
        (optStep O 0 (initOptState tf)) (le_refl 1)
        (by rw [hstepeq]) (by rw [hstepeq])
      refine ⟨?_, ?_, fun A => checkDegeneration_eq O.eig A,
        fun e i => leadCount_lt_iff e i, ?_⟩
      · intro en hen
        rw [hstep0, he, hstepeq] at hen
        simp only [List.singleton_append, List.tail_cons] at hen
        exact (hg en hen).1
      · rw [hstep0, he, hstepeq, ranCheckCount, List.singleton_append,
          List.countP_cons]
        have hcz : List.countP (fun e => ranCheckB e) ext = 0 := by
          rw [List.countP_eq_zero]
          intro a ha
          simp [(hg a ha).1]
        rw [hcz]
        have hcond : ¬ (0 < m + 1 ∧ 10 ≤ O.rows 0 tf) := fun hcon =>
          absurd hcon.2 (by omega)
        rw [if_neg hcond]
        simp [ranCheckB]
      · intro en hen
        rw [hstep0, he, hstepeq] at hen
        simp only [List.singleton_append] at hen
        rcases List.mem_cons.mp hen with rfl | h2
        · rw [hD]
          exact trivial
        · rw [hD]
          exact (hg en h2).2
    · have h10 : 10 ≤ O.rows 0 tf := not_lt.mp hr
      have hD : postCheckData O (m+1) tf =
          checkDegeneration O.eig (O.linSys 0 tf).1 := by
        rw [postCheckData, if_pos ⟨Nat.succ_pos m, h10⟩]
      have hstepeq : optStep O 0 (initOptState tf) =
          ⟨resetFiniteQ (applyX tf
            (if (checkDegeneration O.eig (O.linSys 0 tf).1).1 then
              (checkDegeneration O.eig (O.linSys 0 tf).1).2.mulVec
                (O.linSys 0 tf).2
            else (O.linSys 0 tf).2)),
           (checkDegeneration O.eig (O.linSys 0 tf).1).1,
           (checkDegeneration O.eig (O.linSys 0 tf).1).2,
           [IterLog.applied true
             (checkDegeneration O.eig (O.linSys 0 tf).1).1
             (checkDegeneration O.eig (O.linSys 0 tf).1).2
             (O.linSys 0 tf).2
             (if (checkDegeneration O.eig (O.linSys 0 tf).1).1 then
               (checkDegeneration O.eig (O.linSys 0 tf).1).2.mulVec
                 (O.linSys 0 tf).2
             else (O.linSys 0 tf).2)],
           deltaSmallQ O.radToDegSq
             (if (checkDegeneration O.eig (O.linSys 0 tf).1).1 then
               (checkDegeneration O.eig (O.linSys 0 tf).1).2.mulVec
                 (O.linSys 0 tf).2
             else (O.linSys 0 tf).2)⟩ := by
        simp only [optStep, initOptState, if_neg hr]
        norm_num
      obtain ⟨ext, he, hg, hl1, hl2⟩ := optLoop_tail O
        (checkDegeneration O.eig (O.linSys 0 tf).1) m 1
        (optStep O 0 (initOptState tf)) (le_refl 1)
        (by rw [hstepeq]) (by rw [hstepeq])
      refine ⟨?_, ?_, fun A => checkDegeneration_eq O.eig A,
        fun e i => leadCount_lt_iff e i, ?_⟩
      · intro en hen
        rw [hstep0, he, hstepeq] at hen
        simp only [List.singleton_append, List.tail_cons] at hen
        exact (hg en hen).1
      · rw [hstep0, he, hstepeq, ranCheckCount, List.singleton_append,
          List.countP_cons]
        have hcz : List.countP (fun e => ranCheckB e) ext = 0 := by
          rw [List.countP_eq_zero]
          intro a ha
          simp [(hg a ha).1]
        rw [hcz]
        conv_rhs => rw [if_pos (show 0 < m + 1 ∧ 10 ≤ O.rows 0 tf from
          ⟨Nat.succ_pos m, h10⟩)]
        simp [ranCheckB]
      · intro en hen
        rw [hstep0, he, hstepeq] at hen
        simp only [List.singleton_append] at hen
        rcases List.mem_cons.mp hen with rfl | h2
        · rw [hD]
          simp [GoodEntry]
        · rw [hD]
          exact (hg en h2).2

/-- Claim C2 (counterexample): with an oracle whose first iteration retains
no points and whose second retains ten, a two-iteration run executes both
iterations (the trace has two entries) yet the degeneracy check never runs:
it does not run "exactly once" during the sweep's optimization, because the
fewer-than-10-points skip of the first iteration also skips the check, and
no later iteration may run it. -/
theorem performOptimization_check_not_once :
    (performOptimization oracleSkipFirst 2 twistZero).trace.length = 2 ∧
    ¬ ranCheckCount (performOptimization oracleSkipFirst 2 twistZero).trace
        = 1 := by
  have h : performOptimization oracleSkipFirst 2 twistZero =
      optLoop oracleSkipFirst 0 2
        (optStep oracleSkipFirst 1 (optStep oracleSkipFirst 0
          (initOptState twistZero))) := by
    simp [performOptimization, optLoop, optStep, initOptState,
      oracleSkipFirst]
  rw [h]
  simp [optLoop, optStep, initOptState, oracleSkipFirst, ranCheckCount,
    ranCheckB]

theorem performOptimization_degeneracy_witness :
    (0 < 1 ∧ 10 ≤ oracleTenRows.rows 0 twistZero) ∧
    ranCheckCount (performOptimization oracleTenRows 1 twistZero).trace
      = 1 := by
  have hc : 0 < 1 ∧ 10 ≤ oracleTenRows.rows 0 twistZero :=
    ⟨by norm_num, by norm_num [oracleTenRows]⟩
  have h := (performOptimization_degeneracy oracleTenRows 1 twistZero).2.1
  rw [if_pos hc] at h
  exact ⟨hc, h⟩
